import Mathlib

/-!
Verification of the IceCreamSwap Web3 client library core.

This file shallowly embeds the algorithmic parts of the library
(`EthAdvanced.py`, `Web3Advanced.py`, `Multicall.py`) into Lean and proves
the specified properties about them.  External effects (RPC transport, ABI
codec, hashing) are modelled as oracles / opaque payload values (`Nat`).
-/

namespace Web3Verify

/-! ### Retry engine (`EthAdvanced.exponential_retry`) -/

/-- The backoff computation of `exponential_retry` (EthAdvanced.py lines 55-60):
`retries` is the number of failures seen so far; the returned value is the
number of seconds slept before the next attempt. -/
def waitFor (retries : Nat) : Nat :=
  if retries = 0 then 0
  else if retries < 6 then 2 ^ (retries - 1)
  else 30

/-- An error raised by an RPC operation, abstracted to the two attributes the
retry wrapper inspects: whether it is a decoded EVM revert
(`ContractLogicError`) and whether its message contains `"unknown block"`. -/
structure RpcError where
  isContractLogicError : Bool
  msgHasUnknownBlock : Bool
  deriving DecidableEq, Repr

/-- Decision taken by the retry loop's `except` clause. -/
inductive RetryDecision
  | propagate
  | retryLater
  deriving DecidableEq, Repr

/-- Error classification of `exponential_retry` (EthAdvanced.py lines 50-54):
`ContractLogicError` is re-raised immediately; an "unknown block" error is
re-raised once `retries >= 3`; everything else is retried. -/
def classifyError (e : RpcError) (retries : Nat) : RetryDecision :=
  if e.isContractLogicError then .propagate
  else if e.msgHasUnknownBlock && decide (3 ≤ retries) then .propagate
  else .retryLater

/-- Outcome of one invocation of the wrapped function. -/
inductive Attempt (α : Type)
  | ok (v : α)
  | err (e : RpcError)
  deriving DecidableEq, Repr

/-- The retry loop of `exponential_retry` (EthAdvanced.py lines 46-64), run
against a stream of attempt outcomes.  `retries` is the loop counter.
`none` means the (unbounded) loop is still retrying when the listed outcomes
are exhausted; `some (.ok v)` is a successful return, `some (.error e)` a
raised error. -/
def retryRun {α : Type} (retries : Nat) : List (Attempt α) → Option (Except RpcError α)
  | [] => none
  | .ok v :: _ => some (.ok v)
  | .err e :: rest =>
    match classifyError e retries with
    | .propagate => some (.error e)
    | .retryLater => retryRun (retries + 1) rest

/-- The wrapper `inner` (EthAdvanced.py lines 42-64): with `no_retry` the
function is invoked exactly once and its outcome surfaces unchanged,
otherwise the retry loop runs with the counter starting at 0. -/
def exponentialRetry {α : Type} (noRetry : Bool) (outcomes : List (Attempt α)) :
    Option (Except RpcError α) :=
  if noRetry then
    match outcomes with
    | [] => none
    | .ok v :: _ => some (.ok v)
    | .err e :: _ => some (.error e)
  else retryRun 0 outcomes

/-- C6: the waits produced by `exponential_retry` before retry attempt `k`
(zero-based) follow the schedule 0, 1, 2, 4, 8, 16, 30, 30, 30, …: the wait
is 0 for the first retry, then doubles starting from 1 second, capped at 30
seconds from the 6th retry on. -/
theorem waitFor_schedule :
    (List.range 10).map waitFor = [0, 1, 2, 4, 8, 16, 30, 30, 30, 30] ∧
    ∀ k : Nat, waitFor k = if k = 0 then 0 else min (2 ^ (k - 1)) 30 := by
  constructor
  · decide
  · intro k
    unfold waitFor
    rcases Nat.lt_or_ge k 6 with h | h
    · interval_cases k <;> decide
    · have h1 : k ≠ 0 := by omega
      have h2 : ¬ k < 6 := by omega
      simp only [h1, h2, if_false]
      have h3 : (30 : Nat) ≤ 2 ^ (k - 1) := by
        calc (30 : Nat) ≤ 2 ^ 5 := by decide
        _ ≤ 2 ^ (k - 1) := Nat.pow_le_pow_right (by decide) (by omega)
      omega

/-- C7: classification of errors by the retry wrapper: a `ContractLogicError`
is propagated immediately at any retry count and never retried; an error
whose message contains "unknown block" is retried exactly 3 times and then
raised on the 4th failure; any other error is retried without bound. -/
theorem retry_classification {α : Type} (e : RpcError) :
    (e.isContractLogicError = true →
      ∀ (r : Nat) (rest : List (Attempt α)),
        retryRun r (.err e :: rest) = some (.error e)) ∧
    (e.isContractLogicError = false → e.msgHasUnknownBlock = true →
      ∀ rest : List (Attempt α),
        retryRun 0 (List.replicate 3 (.err e) ++ rest) = retryRun 3 rest ∧
        retryRun 0 (List.replicate 4 (.err e) ++ rest) = some (.error e)) ∧
    (e.isContractLogicError = false → e.msgHasUnknownBlock = false →
      ∀ (n r : Nat), retryRun r (List.replicate n (.err e : Attempt α)) = none) := by
  refine ⟨?_, ?_, ?_⟩
  · intro hcle r rest
    simp [retryRun, classifyError, hcle]
  · intro hcle hub rest
    constructor
    · simp [retryRun, classifyError, hcle, hub, List.replicate]
    · simp [retryRun, classifyError, hcle, hub, List.replicate]
  · intro hcle hub n
    induction n with
    | zero => intro r; simp [retryRun]
    | succ m ih =>
      intro r
      simp only [List.replicate]
      simp [retryRun, classifyError, hcle, hub, ih]

/-- Witness for C7 at concrete inputs: the revert error is propagated at
retry count 5; the unknown-block error is raised after exactly 3 retries;
the transient error is still being retried after 50 attempts. -/
theorem retry_classification_witness :
    retryRun 5 [.err ⟨true, false⟩, .ok 7] = some (.error ⟨true, false⟩) ∧
    retryRun 0 (List.replicate 4 (.err ⟨false, true⟩) ++ [(.ok 7 : Attempt Nat)]) =
      some (.error ⟨false, true⟩) ∧
    retryRun 0 (List.replicate 50 (.err ⟨false, false⟩ : Attempt Nat)) = none := by
  refine ⟨?_, ?_, ?_⟩
  · exact (retry_classification (α := Nat) ⟨true, false⟩).1 rfl 5 [.ok 7]
  · exact ((retry_classification (α := Nat) ⟨false, true⟩).2.1 rfl rfl [.ok 7]).2
  · exact (retry_classification (α := Nat) ⟨false, false⟩).2.2 rfl rfl 50 0

/-! ### Max-batch-size probe (`Web3Advanced._find_max_batch_size`) -/

/-- `Web3Advanced.BATCH_SIZES_TO_TRY` (Web3Advanced.py lines 40-51):
the literal list sorted in descending order. -/
def BATCH_SIZES_TO_TRY : List Nat :=
  (List.insertionSort (· ≤ ·) [1000, 500, 200, 100, 50, 20, 10, 5, 2, 1]).reverse

/-- One probe step of `_find_max_batch_size`: issue a batch of `b` identical
`gas_price` requests.  The RPC is abstracted as `exec`, returning `none` when
the batch raises and otherwise the number of results of the reply; the
`assert len(result) == batch_size` makes the step succeed exactly when that
number equals `b`. -/
def batchProbeOk (exec : Nat → Option Nat) (b : Nat) : Bool :=
  match exec b with
  | some len => decide (len = b)
  | none => false

/-- The probe loop of `_find_max_batch_size` (Web3Advanced.py lines 150-165):
walk the candidate list, remembering the last successful size; the first
failure leaves the `try` block, freezing `working_size`. -/
def findMaxBatchSizeGo (exec : Nat → Option Nat) (working : Nat) : List Nat → Nat
  | [] => working
  | b :: rest =>
    if batchProbeOk exec b then findMaxBatchSizeGo exec b rest else working

/-- `Web3Advanced._find_max_batch_size`: iterate `reversed(BATCH_SIZES_TO_TRY)`
starting from `working_size = 0`. -/
def find_max_batch_size (exec : Nat → Option Nat) : Nat :=
  findMaxBatchSizeGo exec 0 BATCH_SIZES_TO_TRY.reverse

/-- The probe loop returns the last element of the longest prefix of
candidates that all succeed (or the initial value when the first candidate
already fails). -/
theorem findMaxBatchSizeGo_eq_takeWhile (exec : Nat → Option Nat) :
    ∀ (l : List Nat) (working : Nat),
      findMaxBatchSizeGo exec working l = (l.takeWhile (batchProbeOk exec)).getLastD working := by
  intro l
  induction l with
  | nil => intro working; rfl
  | cons b rest ih =>
    intro working
    by_cases hb : batchProbeOk exec b
    · rw [findMaxBatchSizeGo, if_pos hb, List.takeWhile_cons, if_pos hb,
        List.getLastD_cons, ih]
    · rw [findMaxBatchSizeGo, if_neg hb, List.takeWhile_cons, if_neg hb]
      rfl

/-- C8: the max-batch-size probe tries the candidates
1, 2, 5, 10, 20, 50, 100, 200, 500, 1000 in ascending order, each step
requiring that a batch of `B` requests yields exactly `B` results; the first
failure stops escalation and the result is the largest candidate of the
successful prefix, 0 when the very first candidate already fails. -/
theorem find_max_batch_size_spec :
    BATCH_SIZES_TO_TRY.reverse = [1, 2, 5, 10, 20, 50, 100, 200, 500, 1000] ∧
    List.Pairwise (· < ·) BATCH_SIZES_TO_TRY.reverse ∧
    ∀ exec : Nat → Option Nat,
      find_max_batch_size exec =
        (([1, 2, 5, 10, 20, 50, 100, 200, 500, 1000].takeWhile (batchProbeOk exec)).getLastD 0) := by
  refine ⟨by decide, by decide, ?_⟩
  intro exec
  have h : BATCH_SIZES_TO_TRY.reverse = [1, 2, 5, 10, 20, 50, 100, 200, 500, 1000] := by decide
  rw [find_max_batch_size, h, findMaxBatchSizeGo_eq_takeWhile]

/-! ### `get_logs` range splitting (`EthAdvanced.get_logs`, step F) -/

/-- The sanitized filter parameters relevant to range splitting
(`FilterParamsSanitized`): integer bounds plus the two optional witness
hashes (hash payloads abstracted as `Nat`). -/
structure LogFilter where
  fromBlock : Nat
  toBlock : Nat
  fromBlockParentHash : Option Nat
  toBlockHash : Option Nat
  deriving DecidableEq, Repr, Inhabited

/-- Python `range(from_block, to_block + 1, filter_block_range)`
(EthAdvanced.py line 247): the chunk start points. -/
def splitStarts (fromB toB fbr : Nat) : List Nat :=
  List.range' fromB ((toB + 1 - fromB + fbr - 1) / fbr) fbr

/-- One `partial_filter` of the splitting loop (EthAdvanced.py lines 248-257):
`filter_end = min(filter_start + filter_block_range - 1, to_block)`; the
`toBlockHash` entry is deleted when present and the chunk does not end at
`to_block`; the `fromBlockParentHash` entry is deleted when present and the
chunk does not start at `from_block`. -/
def chunkFilter (fp : LogFilter) (fbr start : Nat) : LogFilter :=
  let e := min (start + fbr - 1) fp.toBlock
  { fromBlock := start
    toBlock := e
    toBlockHash := if fp.toBlockHash ≠ none ∧ e ≠ fp.toBlock then none else fp.toBlockHash
    fromBlockParentHash :=
      if fp.fromBlockParentHash ≠ none ∧ start ≠ fp.fromBlock then none
      else fp.fromBlockParentHash }

/-- The list of sub-filters produced by the splitting loop of `get_logs`
(EthAdvanced.py lines 245-259), in loop order. -/
def splitFilters (fp : LogFilter) (fbr : Nat) : List LogFilter :=
  (splitStarts fp.fromBlock fp.toBlock fbr).map (chunkFilter fp fbr)

/-- The inclusive block range `[a, b]` as an ascending list. -/
def blockList (a b : Nat) : List Nat := List.range' a (b + 1 - a)

theorem splitStarts_single (f t fbr : Nat) (h1 : 0 < fbr) (h2 : f ≤ t)
    (h3 : t + 1 - f ≤ fbr) : splitStarts f t fbr = [f] := by
  unfold splitStarts
  have hn : t + 1 - f + fbr - 1 = (t - f) + fbr := by omega
  rw [hn, Nat.add_div_right _ h1, Nat.div_eq_of_lt (by omega)]
  rfl

theorem splitStarts_cons (f t fbr : Nat) (h1 : 0 < fbr) (h3 : fbr < t + 1 - f) :
    splitStarts f t fbr = f :: splitStarts (f + fbr) t fbr := by
  unfold splitStarts
  have hn : t + 1 - f + fbr - 1 = (t + 1 - (f + fbr) + fbr - 1) + fbr := by omega
  rw [hn, Nat.add_div_right _ h1, List.range'_succ]

theorem blockList_append (a b c : Nat) (h1 : a ≤ b + 1) (h2 : b ≤ c) :
    blockList a b ++ blockList (b + 1) c = blockList a c := by
  unfold blockList
  have h := List.range'_append a (b + 1 - a) (c + 1 - (b + 1)) 1
  simp only [Nat.mul_one, one_mul] at h
  have hb : a + (b + 1 - a) = b + 1 := by omega
  have hc : (b + 1 - a) + (c + 1 - (b + 1)) = c + 1 - a := by omega
  rw [hb] at h
  rw [h]
  congr 1
  omega

/-- Bundle of structural facts about the chunk start list, proved by
induction on an upper bound of the remaining width. -/
theorem splitStarts_bundle (t fbr : Nat) (h1 : 0 < fbr) :
    ∀ d f, f ≤ t → t + 1 - f ≤ d →
      splitStarts f t fbr ≠ [] ∧
      (splitStarts f t fbr).head? = some f ∧
      ((splitStarts f t fbr).map (fun s => blockList s (min (s + fbr - 1) t))).flatten
        = blockList f t ∧
      (∀ s ∈ (splitStarts f t fbr).dropLast, s + fbr - 1 < t) ∧
      (∀ s, (splitStarts f t fbr).getLast? = some s → t ≤ s + fbr - 1) ∧
      (∀ s ∈ splitStarts f t fbr, f ≤ s ∧ s ≤ t) ∧
      List.Chain' (fun a b => b = a + fbr ∧ a + fbr ≤ t) (splitStarts f t fbr) := by
  intro d
  induction d with
  | zero => intro f hf hd; omega
  | succ d ih =>
    intro f hf hd
    by_cases hsmall : t + 1 - f ≤ fbr
    · rw [splitStarts_single f t fbr h1 hf hsmall]
      have hmin : min (f + fbr - 1) t = t := by omega
      refine ⟨by simp, rfl, ?_, ?_, ?_, ?_, ?_⟩
      · simp [hmin]
      · intro s hs; simp at hs
      · intro s hs
        simp only [List.getLast?_singleton, Option.some.injEq] at hs
        omega
      · intro s hs
        simp only [List.mem_singleton] at hs
        omega
      · simp
    · push_neg at hsmall
      rw [splitStarts_cons f t fbr h1 hsmall]
      obtain ⟨ne, hhead, hjoin, hdrop, hlast, hmem, hchain⟩ :=
        ih (f + fbr) (by omega) (by omega)
      have hmin : min (f + fbr - 1) t = f + fbr - 1 := by omega
      refine ⟨by simp, rfl, ?_, ?_, ?_, ?_, ?_⟩
      · rw [List.map_cons, List.flatten_cons, hjoin, hmin]
        have hba := blockList_append f (f + fbr - 1) t (by omega) (by omega)
        rw [show f + fbr - 1 + 1 = f + fbr by omega] at hba
        exact hba
      · intro s hs
        rw [List.dropLast_cons_of_ne_nil ne] at hs
        rcases List.mem_cons.mp hs with h | h
        · omega
        · exact hdrop s h
      · intro s hs
        rcases List.exists_cons_of_ne_nil ne with ⟨y, ys, hy⟩
        rw [hy, List.getLast?_cons_cons] at hs
        exact hlast s (by rw [hy]; exact hs)
      · intro s hs
        rcases List.mem_cons.mp hs with h | h
        · omega
        · have := hmem s h; omega
      · rw [List.chain'_cons']
        refine ⟨?_, hchain⟩
        intro b hb
        rw [hhead] at hb
        simp only [Option.mem_def, Option.some.injEq] at hb
        omega

/-- Every member of a list is in its `dropLast` or is its last element. -/
theorem mem_dropLast_or_getLast?_eq_some {α : Type} {l : List α} {s : α} (hs : s ∈ l) :
    s ∈ l.dropLast ∨ l.getLast? = some s := by
  induction l with
  | nil => simp at hs
  | cons a rest ih =>
    cases rest with
    | nil =>
      right
      simp only [List.mem_singleton] at hs
      simp [hs]
    | cons b bs =>
      rcases List.mem_cons.mp hs with h | h
      · left
        rw [List.dropLast_cons_of_ne_nil (by simp)]
        exact h ▸ List.mem_cons_self a _
      · rcases ih h with h2 | h2
        · left
          rw [List.dropLast_cons_of_ne_nil (by simp)]
          exact List.mem_cons_of_mem a h2
        · right
          rw [List.getLast?_cons_cons]
          exact h2

/-- Pointwise witness retention of a chunk filter: `toBlockHash` survives
exactly on a chunk ending at `to_block`, `fromBlockParentHash` exactly on a
chunk starting at `from_block`. -/
theorem chunkFilter_witnesses (fp : LogFilter) (fbr start : Nat) :
    (chunkFilter fp fbr start).toBlockHash
      = (if (chunkFilter fp fbr start).toBlock = fp.toBlock then fp.toBlockHash else none) ∧
    (chunkFilter fp fbr start).fromBlockParentHash
      = (if start = fp.fromBlock then fp.fromBlockParentHash else none) := by
  unfold chunkFilter
  constructor
  · by_cases he : min (start + fbr - 1) fp.toBlock = fp.toBlock
    · simp [he]
    · cases htb : fp.toBlockHash with
      | none => simp [he, htb]
      | some h => simp [he, htb]
  · by_cases hs : start = fp.fromBlock
    · simp [hs]
    · cases hfb : fp.fromBlockParentHash with
      | none => simp [hs, hfb]
      | some h => simp [hs, hfb]

/-- C1: when `num_blocks = to_block - from_block + 1` exceeds
`filter_block_range > 0`, `get_logs` partitions `[from_block, to_block]` into
contiguous chunks of exactly `filter_block_range` blocks starting at
`from_block` (the last chunk may be shorter), recursing on them in ascending
order; the concatenation of the chunk block ranges is exactly
`[from_block .. to_block]`, each block covered once, in order.  The
`toBlockHash` witness is kept only on the chunk ending at `to_block` (the
last one), `fromBlockParentHash` only on the chunk starting at `from_block`
(the first one).  With `filter_block_range = 10` and range `[50, 100]` the
sub-ranges are `[50,59], [60,69], [70,79], [80,89], [90,99], [100,100]`. -/
theorem get_logs_split_spec (fp : LogFilter) (fbr : Nat) (h1 : 0 < fbr)
    (h2 : fp.fromBlock ≤ fp.toBlock) (h3 : fbr < fp.toBlock + 1 - fp.fromBlock) :
    (splitFilters fp fbr ≠ [] ∧
     ((splitFilters fp fbr).map (fun c => blockList c.fromBlock c.toBlock)).flatten
        = blockList fp.fromBlock fp.toBlock ∧
     (splitFilters fp fbr).head?.map (fun c => c.fromBlock) = some fp.fromBlock ∧
     List.Chain' (fun a b => b.fromBlock = a.toBlock + 1) (splitFilters fp fbr) ∧
     (∀ c ∈ (splitFilters fp fbr).dropLast, c.toBlock + 1 - c.fromBlock = fbr) ∧
     (∀ c, (splitFilters fp fbr).getLast? = some c → c.toBlock = fp.toBlock) ∧
     (∀ c ∈ splitFilters fp fbr,
        c.fromBlock ≤ c.toBlock ∧ c.toBlock + 1 - c.fromBlock ≤ fbr ∧
        (c.toBlock = fp.toBlock → (splitFilters fp fbr).getLast? = some c) ∧
        c.toBlockHash = (if c.toBlock = fp.toBlock then fp.toBlockHash else none) ∧
        c.fromBlockParentHash
          = (if c.fromBlock = fp.fromBlock then fp.fromBlockParentHash else none))) ∧
    (splitFilters ⟨50, 100, none, none⟩ 10).map (fun c => (c.fromBlock, c.toBlock))
      = [(50, 59), (60, 69), (70, 79), (80, 89), (90, 99), (100, 100)] := by
  obtain ⟨ne, hhead, hjoin, hdrop, hlast, hmem, hchain⟩ :=
    splitStarts_bundle fp.toBlock fbr h1 (fp.toBlock + 1 - fp.fromBlock) fp.fromBlock h2
      (le_refl _)
  refine ⟨⟨?_, ?_, ?_, ?_, ?_, ?_, ?_⟩, by decide⟩
  · simp only [splitFilters, ne_eq, List.map_eq_nil_iff]
    exact ne
  · unfold splitFilters
    rw [List.map_map]
    exact hjoin
  · unfold splitFilters
    rw [List.head?_map, hhead]
    rfl
  · unfold splitFilters
    rw [List.chain'_map]
    refine List.Chain'.imp ?_ hchain
    intro a b hab
    show (chunkFilter fp fbr b).fromBlock = (chunkFilter fp fbr a).toBlock + 1
    have h4 : (chunkFilter fp fbr a).toBlock = min (a + fbr - 1) fp.toBlock := rfl
    have h5 : (chunkFilter fp fbr b).fromBlock = b := rfl
    rw [h4, h5]
    omega
  · intro c hc
    unfold splitFilters at hc
    rw [← List.map_dropLast] at hc
    rcases List.mem_map.mp hc with ⟨s, hs, rfl⟩
    have hw := hdrop s hs
    have h4 : (chunkFilter fp fbr s).toBlock = min (s + fbr - 1) fp.toBlock := rfl
    have h5 : (chunkFilter fp fbr s).fromBlock = s := rfl
    rw [h4, h5]
    omega
  · intro c hc
    unfold splitFilters at hc
    rw [List.getLast?_map] at hc
    cases hg : (splitStarts fp.fromBlock fp.toBlock fbr).getLast? with
    | none => rw [hg] at hc; simp at hc
    | some s =>
      rw [hg] at hc
      have hc2 : chunkFilter fp fbr s = c := by simpa using hc
      have h6 := hlast s hg
      have h7 : s ≤ fp.toBlock := (hmem s (List.mem_of_getLast?_eq_some hg)).2
      rw [← hc2]
      have h4 : (chunkFilter fp fbr s).toBlock = min (s + fbr - 1) fp.toBlock := rfl
      rw [h4]
      omega
  · intro c hc
    rcases List.mem_map.mp hc with ⟨s, hs, rfl⟩
    have h4 : (chunkFilter fp fbr s).toBlock = min (s + fbr - 1) fp.toBlock := rfl
    have h5 : (chunkFilter fp fbr s).fromBlock = s := rfl
    have hb := hmem s hs
    refine ⟨by rw [h4, h5]; omega, by rw [h4, h5]; omega, ?_, ?_, ?_⟩
    · intro hct
      -- a chunk ending at to_block must come from the last start point
      have hlast2 : (splitStarts fp.fromBlock fp.toBlock fbr).getLast? = some s := by
        rcases mem_dropLast_or_getLast?_eq_some hs with h | h
        · exfalso
          have := hdrop s h
          rw [h4] at hct
          omega
        · exact h
      unfold splitFilters
      rw [List.getLast?_map, hlast2]
      rfl
    · exact (chunkFilter_witnesses fp fbr s).1
    · rw [h5]
      exact (chunkFilter_witnesses fp fbr s).2

/-- Witness for C1: the split of range `[50, 100]` with cap 10 and both
witness hashes attached satisfies every property of
`get_logs_split_spec`. -/
theorem get_logs_split_witness :
    (splitFilters ⟨50, 100, some 11, some 22⟩ 10 ≠ [] ∧
     ((splitFilters ⟨50, 100, some 11, some 22⟩ 10).map
        (fun c => blockList c.fromBlock c.toBlock)).flatten = blockList 50 100 ∧
     (splitFilters ⟨50, 100, some 11, some 22⟩ 10).head?.map (fun c => c.fromBlock)
        = some 50 ∧
     List.Chain' (fun a b => b.fromBlock = a.toBlock + 1)
        (splitFilters ⟨50, 100, some 11, some 22⟩ 10) ∧
     (∀ c ∈ (splitFilters ⟨50, 100, some 11, some 22⟩ 10).dropLast,
        c.toBlock + 1 - c.fromBlock = 10) ∧
     (∀ c, (splitFilters ⟨50, 100, some 11, some 22⟩ 10).getLast? = some c →
        c.toBlock = 100) ∧
     (∀ c ∈ splitFilters ⟨50, 100, some 11, some 22⟩ 10,
        c.fromBlock ≤ c.toBlock ∧ c.toBlock + 1 - c.fromBlock ≤ 10 ∧
        (c.toBlock = 100 →
          (splitFilters ⟨50, 100, some 11, some 22⟩ 10).getLast? = some c) ∧
        c.toBlockHash = (if c.toBlock = 100 then some 22 else none) ∧
        c.fromBlockParentHash = (if c.fromBlock = 50 then some 11 else none))) ∧
    (splitFilters ⟨50, 100, none, none⟩ 10).map (fun c => (c.fromBlock, c.toBlock))
      = [(50, 59), (60, 69), (70, 79), (80, 89), (90, 99), (100, 100)] :=
  get_logs_split_spec ⟨50, 100, some 11, some 22⟩ 10 (by decide) (by decide) (by decide)

/-! ### `get_logs` step G: batched fetch with reorg witnesses
(`EthAdvanced.get_logs`, lines 261-297) -/

/-- A block body, reduced to the three fields `get_logs` inspects.  Hashes
are abstracted as `Nat`. -/
structure BlockBody where
  number : Nat
  hash : Nat
  parentHash : Nat
  deriving DecidableEq, Repr

/-- One entry of the reply to the witness batch: either the log list of the
`eth_getLogs` request or a block body. -/
inductive BatchItem
  | logs (events : List Nat)
  | block (body : BlockBody)
  deriving DecidableEq, Repr

/-- The ways the `try` block of step G can terminate abnormally. -/
inductive StepGError
  | unpackMismatch      -- tuple unpacking a reply of the wrong arity (ValueError)
  | typeConfusion       -- subscripting a log list as if it were a block body (TypeError)
  | assertFailed        -- one of the block-number asserts
  | forkedBlock         -- the ForkedBlock exception
  deriving DecidableEq, Repr

/-- Python tuple unpacking `a, b = xs` of a reply list. -/
def unpack2 (xs : List BatchItem) : Except StepGError (BatchItem × BatchItem) :=
  match xs with
  | [a, b] => .ok (a, b)
  | _ => .error .unpackMismatch

/-- Python tuple unpacking `a, b, c = xs` of a reply list. -/
def unpack3 (xs : List BatchItem) : Except StepGError (BatchItem × BatchItem × BatchItem) :=
  match xs with
  | [a, b, c] => .ok (a, b, c)
  | _ => .error .unpackMismatch

/-- Reading a block field off a batch item; subscripting the log list raises
`TypeError`. -/
def BatchItem.asBlock : BatchItem → Except StepGError BlockBody
  | .logs _ => .error .typeConfusion
  | .block b => .ok b

/-- Reading the event list off a batch item (Python would accept any value
here; only a genuine log list is ever returned on the success path). -/
def BatchItem.asLogs : BatchItem → Except StepGError (List Nat)
  | .logs l => .ok l
  | .block _ => .error .typeConfusion

/-- The `try` block of `get_logs` step G (EthAdvanced.py lines 262-286):
build the batch — `get_block(from)` first when a `fromBlockParentHash`
witness is present, then the `get_logs`, then `get_block(to)` — and then
unpack and validate exactly as the source does: *when the witness is
present* the reply is unpacked as `events, to_block_body` (two names), and
*when it is absent* as `events, to_block_body, from_block_body` (three
names), followed by the from-number assert, the parent-hash comparison
against `from_block_parent_hash`, the to-number assert and the to-hash
comparison.  `blockOf` abstracts the node's `eth_getBlockByNumber` and
`events` the `eth_getLogs` reply. -/
def tryStepG (blockOf : Nat → BlockBody) (events : List Nat) (fp : LogFilter) :
    Except StepGError (List Nat) := do
  let batchResults : List BatchItem :=
    (if fp.fromBlockParentHash.isSome then [.block (blockOf fp.fromBlock)] else [])
      ++ [.logs events, .block (blockOf fp.toBlock)]
  let (evItem, toItem) ← (do
    if fp.fromBlockParentHash.isSome then
      let (a, b) ← unpack2 batchResults
      pure (a, b)
    else
      let (a, b, c) ← unpack3 batchResults
      -- names as in source: events, to_block_body, from_block_body
      let fromBody ← c.asBlock
      if fromBody.number ≠ fp.fromBlock then throw .assertFailed
      if some fromBody.parentHash ≠ fp.fromBlockParentHash then throw .forkedBlock
      pure (a, b))
  let toBody ← toItem.asBlock
  if toBody.number ≠ fp.toBlock then throw .assertFailed
  if fp.toBlockHash.isSome ∧ some toBody.hash ≠ fp.toBlockHash then throw .forkedBlock
  (evItem.asLogs : Except StepGError (List Nat))

/-- Outcome of step G as a whole: either the events, or — after *any*
exception in the `try` block, `ForkedBlock` included — the bisection of the
`except` clause (lines 287-297), which halves the range and strips the
witnesses that no longer apply. -/
inductive StepGOutcome
  | events (l : List Nat)
  | bisect (left right : LogFilter)
  deriving DecidableEq, Repr

/-- Step G with its `except Exception` clause (EthAdvanced.py lines 287-297). -/
def stepG (blockOf : Nat → BlockBody) (events : List Nat) (fp : LogFilter) :
    StepGOutcome :=
  match tryStepG blockOf events fp with
  | .ok l => .events l
  | .error _ =>
    let mid := (fp.fromBlock + fp.toBlock) / 2
    .bisect
      { fp with toBlock := mid, toBlockHash := none }
      { fp with fromBlock := mid + 1, fromBlockParentHash := none }

/-- C2 (code bug): the batch of step G contains three requests exactly when
a `fromBlockParentHash` witness is supplied, but the source unpacks the
reply into two names in that case and into three names otherwise, so the
arity of the tuple unpacking never matches: the `try` block always raises
`ValueError`, the witness comparisons and the `ForkedBlock` raises are
unreachable, and every call of step G falls into the `except` clause and
bisects — `ForkedBlock` could never surface because the `except Exception`
clause would swallow it as well. -/
theorem stepG_always_bisects (blockOf : Nat → BlockBody) (events : List Nat)
    (fp : LogFilter) :
    tryStepG blockOf events fp = .error .unpackMismatch ∧
    stepG blockOf events fp =
      .bisect
        { fp with toBlock := (fp.fromBlock + fp.toBlock) / 2, toBlockHash := none }
        { fp with fromBlock := (fp.fromBlock + fp.toBlock) / 2 + 1,
                  fromBlockParentHash := none } := by
  have h : tryStepG blockOf events fp = .error .unpackMismatch := by
    unfold tryStepG
    cases hw : fp.fromBlockParentHash with
    | none => simp [hw, unpack3, Bind.bind, Except.bind]
    | some w => simp [hw, unpack2, Bind.bind, Except.bind]
  refine ⟨h, ?_⟩
  unfold stepG
  rw [h]

/-- Evaluation of the bug at a concrete failing input: range `[5, 6]` with a
parent-hash witness, an honest node (`blockOf` returns consistent bodies
whose parent hash matches the witness) and a non-empty log reply — the call
still takes the `ValueError` path and bisects into `[5, 5]` and `[6, 6]`. -/
theorem stepG_concrete_failure :
    stepG (fun n => ⟨n, 100 + n, 7⟩) [41, 42] ⟨5, 6, some 7, none⟩ =
      .bisect ⟨5, 5, some 7, none⟩ ⟨6, 6, none, none⟩ := by
  decide

/-! ### `EthAdvanced.call` and the smuggled `no_retry` key
(EthAdvanced.py lines 106-126) -/

/-- A value stored in a transaction mapping: the `no_retry` entry holds a
boolean, every other entry is an opaque payload. -/
inductive TxVal
  | boolVal (b : Bool)
  | payload (n : Nat)
  deriving DecidableEq, Repr

/-- Python truthiness of a transaction value (the popped `no_retry` value is
used as a boolean). -/
def TxVal.asBool : TxVal → Bool
  | .boolVal b => b
  | .payload n => decide (n ≠ 0)

/-- A transaction mapping, as an association list keyed by strings (a
Python dict: at most one entry per key). -/
def Tx : Type := List (String × TxVal)

/-- Dict lookup. -/
def txLookup (tx : Tx) (k : String) : Option TxVal :=
  ((tx : List (String × TxVal)).find? (fun p => p.1 = k)).map (fun p => p.2)

/-- Python `del tx[k]`. -/
def txErase (tx : Tx) (k : String) : Tx :=
  (tx : List (String × TxVal)).filter (fun p => ¬ p.1 = k)

/-- What `EthAdvanced.call` does with its transaction argument and the
`no_retry` flag (EthAdvanced.py lines 114-118): if the mapping holds a
`no_retry` key, its value replaces the `no_retry` parameter and the key is
deleted *from the caller's mapping* (Python dicts are passed by reference);
afterwards the flag is forced to `true` when the instance was constructed
with `should_retry = False`.  The result records the mapping forwarded to
`super().call` (the same object the caller still holds) and the effective
flag handed to the retry wrapper. -/
def ethCall (shouldRetry : Bool) (tx : Tx) (noRetryParam : Bool) : Tx × Bool :=
  let popped :=
    match txLookup tx "no_retry" with
    | some v => (txErase tx "no_retry", v.asBool)
    | none => (tx, noRetryParam)
  let noRetry := if ¬ shouldRetry then true else popped.2
  (popped.1, noRetry)

/-- C10 counterexample: with `should_retry = False` the removed `no_retry`
value `False` is *not* used as the effective flag — the flag is forced to
`true` — refuting the claim that the removed value is always the effective
`no_retry` flag. -/
theorem ethCall_no_retry_counterexample :
    txLookup [("no_retry", TxVal.boolVal false)] "no_retry"
        = some (TxVal.boolVal false) ∧
    (TxVal.boolVal false).asBool = false ∧
    (ethCall false [("no_retry", TxVal.boolVal false)] false).2 = true := by
  refine ⟨rfl, rfl, rfl⟩

/-- Lookup after erasing a different key is unchanged. -/
theorem txLookup_erase_ne (tx : Tx) (k k2 : String) (h : k2 ≠ k) :
    txLookup (txErase tx k) k2 = txLookup tx k2 := by
  induction tx with
  | nil => rfl
  | cons p rest ih =>
    unfold txLookup txErase at ih ⊢
    rw [List.filter_cons]
    by_cases hp : p.1 = k
    · rw [if_neg (by simp [hp])]
      rw [List.find?_cons_of_neg _ (by simp [hp]; exact fun hh => h hh.symm)]
      exact ih
    · rw [if_pos (by simp [hp])]
      by_cases h2 : p.1 = k2
      · rw [List.find?_cons_of_pos _ (by simp [h2]),
          List.find?_cons_of_pos _ (by simp [h2])]
      · rw [List.find?_cons_of_neg _ (by simp [h2]),
          List.find?_cons_of_neg _ (by simp [h2])]
        exact ih

/-- Erasing a key removes it. -/
theorem txLookup_erase_self (tx : Tx) (k : String) :
    txLookup (txErase tx k) k = none := by
  induction tx with
  | nil => rfl
  | cons p rest ih =>
    unfold txLookup txErase at ih ⊢
    rw [List.filter_cons]
    by_cases hp : p.1 = k
    · rw [if_neg (by simp [hp])]
      exact ih
    · rw [if_pos (by simp [hp])]
      rw [List.find?_cons_of_neg _ (by simp [hp])]
      exact ih

/-- C10 (amended): `EthAdvanced.call` removes a `no_retry` key from the
caller's transaction mapping — the deletion is visible to the caller because
the same dict object is mutated — forwards every other entry unchanged, and
uses the removed value as the effective `no_retry` flag *provided the
instance has `should_retry = True`*; when `should_retry = False` the
effective flag is forced to `true` regardless of the removed value. -/
theorem ethCall_no_retry_spec (tx : Tx) (noRetryParam : Bool) (v : TxVal)
    (hfound : txLookup tx "no_retry" = some v) :
    (ethCall true tx noRetryParam).1 = txErase tx "no_retry" ∧
    txLookup (ethCall true tx noRetryParam).1 "no_retry" = none ∧
    (∀ k : String, k ≠ "no_retry" →
      txLookup (ethCall true tx noRetryParam).1 k = txLookup tx k) ∧
    (ethCall true tx noRetryParam).2 = v.asBool ∧
    (∀ nrp : Bool, (ethCall false tx nrp).2 = true) := by
  have hfwd : (ethCall true tx noRetryParam).1 = txErase tx "no_retry" := by
    unfold ethCall
    rw [hfound]
  refine ⟨hfwd, ?_, ?_, ?_, ?_⟩
  · rw [hfwd]
    exact txLookup_erase_self tx "no_retry"
  · intro k hk
    rw [hfwd]
    exact txLookup_erase_ne tx "no_retry" k hk
  · unfold ethCall
    rw [hfound]
    simp
  · intro nrp
    unfold ethCall
    cases txLookup tx "no_retry" <;> rfl

/-- Witness for C10 (amended) at a concrete transaction: the `no_retry`
entry is popped (value `true` becomes the effective flag), the `"to"`
payload survives, and the caller-visible mapping no longer holds the key. -/
theorem ethCall_no_retry_witness :
    (ethCall true [("to", TxVal.payload 9), ("no_retry", TxVal.boolVal true)] false).1
        = [("to", TxVal.payload 9)] ∧
    txLookup (ethCall true [("to", TxVal.payload 9),
        ("no_retry", TxVal.boolVal true)] false).1 "no_retry" = none ∧
    txLookup (ethCall true [("to", TxVal.payload 9),
        ("no_retry", TxVal.boolVal true)] false).1 "to" = some (TxVal.payload 9) ∧
    (ethCall true [("to", TxVal.payload 9), ("no_retry", TxVal.boolVal true)] false).2
        = true := by
  have h := ethCall_no_retry_spec
    [("to", TxVal.payload 9), ("no_retry", TxVal.boolVal true)] false
    (TxVal.boolVal true) (by rfl)
  refine ⟨by rw [h.1]; rfl, h.2.1, ?_, h.2.2.2.1⟩
  exact h.2.2.1 "to" (by decide)

/-! ### Multicall execution loop (`MultiCall._inner_call`, Multicall.py
lines 124-221) -/

/-- A decoded per-call result of `decode_contract_function_result`, tagged
with the call it was decoded for (the decoding uses the call's output ABI,
so slot `i` of the result list is a function of `raw_returns[i]` and
`contract_functions[i]`); raw payloads, decoded values and exception objects
are abstracted as `Nat`. -/
inductive CallResult (C : Type)
  | ok (call : C) (decoded : Nat)
  | failed (call : C) (exn : Nat)
  deriving DecidableEq, Repr

/-- The call a result slot belongs to. -/
def CallResult.call {C : Type} : CallResult C → C
  | .ok c _ => c
  | .failed c _ => c

/-- `MultiCall.decode_contract_function_result`: an exception object passes
through unchanged in its slot, raw bytes are decoded with the call's ABI. -/
def decodeOne {C : Type} (c : C) (raw : Except Nat Nat) : CallResult C :=
  match raw with
  | .ok d => .ok c d
  | .error e => .failed c e

/-- `MultiCall.decode_contract_function_results`: `zip(raw_returns,
contract_functions)` truncates to the shorter list. -/
def decodeResults {C : Type} (calls : List C) (raws : List (Except Nat Nat)) :
    List (CallResult C) :=
  List.zipWith decodeOne calls raws

/-- The reply of one `_call_multicall` invocation, abstracted as an oracle
over the submitted call list: either a raised exception (opaque `Nat`), or
the per-call `(raw_return, gas_usage)` pairs produced by
`_decode_muilticall` (an `Except.error` entry is a per-call exception such
as the `ContractLogicError` built for a reverted call; a `none` gas entry
mirrors Python's `None`). -/
def MCOracle (C : Type) : Type :=
  List C → Except Nat (List (Except Nat Nat × Option Nat))

/-- `_call_multicall` additionally raises
`ValueError("No data returned from multicall")` when the reply is empty
(Multicall.py lines 490-491); the opaque exception value 0 stands for that
`ValueError`. -/
def callMulticall {C : Type} (orc : MCOracle C) (calls : List C) :
    Except Nat (List (Except Nat Nat × Option Nat)) :=
  match orc calls with
  | .error e => .error e
  | .ok [] => .error 0
  | .ok (x :: xs) => .ok (x :: xs)

/-- `MultiCall._inner_call` (Multicall.py lines 124-221), with an explicit
recursion budget `fuel` (any `fuel ≥ calls.length` computes the same result;
`none` is an exception escaping `_inner_call`, which for `batch_size = 0`
is Python's `ValueError` from `range(0, n, 0)`):
* an empty call list returns `([], [])` (lines 134-135);
* more calls than `batch_size`: process slices of `batch_size` in order and
  concatenate (lines 143-155);
* otherwise invoke the multicall; on an exception with a single call the
  call is re-invoked with retries and the final exception is recorded in
  its slot with a `None` gas usage (lines 178-191); on an exception with
  several calls the list is bisected and the halves concatenated
  (lines 192-204);
* on success, when fewer raw returns than calls came back and more than one
  did, the last raw return is dropped (lines 205-210); the raw returns are
  zipped with the calls, and when that does not cover every call the
  remainder starting at the first uncovered position is executed recursively
  and concatenated (lines 211-221). -/
def innerCallF {C : Type} (orc : MCOracle C) (batchSize : Nat) :
    Nat → List C → Option (List (CallResult C) × List (Option Nat))
  | _, [] => some ([], [])
  | 0, _ :: _ => none
  | fuel + 1, c :: cs =>
    let calls := c :: cs
    if batchSize = 0 then none
    else if batchSize < calls.length then do
      let (r1, g1) ← innerCallF orc batchSize fuel (calls.take batchSize)
      let (r2, g2) ← innerCallF orc batchSize fuel (calls.drop batchSize)
      pure (r1 ++ r2, g1 ++ g2)
    else
      match callMulticall orc calls with
      | .error e =>
        match cs with
        | [] => some ([decodeOne c (.error e)], [none])
        | _ :: _ => do
          let middle := calls.length / 2
          let (r1, g1) ← innerCallF orc batchSize fuel (calls.take middle)
          let (r2, g2) ← innerCallF orc batchSize fuel (calls.drop middle)
          pure (r1 ++ r2, g1 ++ g2)
      | .ok raws =>
        let raws2 :=
          if raws.length ≠ calls.length ∧ 1 < raws.length then raws.dropLast else raws
        let results := decodeResults calls (raws2.map Prod.fst)
        let gas := raws2.map Prod.snd
        if results.length = calls.length then some (results, gas)
        else do
          let (r2, g2) ← innerCallF orc batchSize fuel (calls.drop results.length)
          pure (results ++ r2, gas ++ g2)

/-- `MultiCall._inner_call` as called from `call_with_gas`: the budget
`calls.length` always suffices (every recursive call is on a strictly
shorter list). -/
def innerCall {C : Type} (orc : MCOracle C) (batchSize : Nat) (calls : List C) :
    Option (List (CallResult C) × List (Option Nat)) :=
  innerCallF orc batchSize calls.length calls

/-- A successful `callMulticall` reply is a non-empty reply of the oracle. -/
theorem callMulticall_ok {C : Type} (orc : MCOracle C) (calls : List C)
    (raws : List (Except Nat Nat × Option Nat))
    (hmc : callMulticall orc calls = .ok raws) :
    raws ≠ [] ∧ orc calls = .ok raws := by
  unfold callMulticall at hmc
  cases ho : orc calls with
  | error e => rw [ho] at hmc; exact absurd hmc (by simp)
  | ok l =>
    rw [ho] at hmc
    cases l with
    | nil => exact absurd hmc (by simp)
    | cons x xs =>
      simp only [Except.ok.injEq] at hmc
      exact ⟨by rw [← hmc]; simp, by rw [hmc]⟩

/-- Decoded results recover the covered prefix of the call list. -/
theorem decodeResults_map_call {C : Type} :
    ∀ (calls : List C) (raws : List (Except Nat Nat)),
      (decodeResults calls raws).map CallResult.call = calls.take raws.length := by
  intro calls
  induction calls with
  | nil => intro raws; cases raws <;> rfl
  | cons c cs ih =>
    intro raws
    cases raws with
    | nil => rfl
    | cons r rs =>
      show CallResult.call (decodeOne c r) :: (decodeResults cs rs).map CallResult.call
        = c :: cs.take rs.length
      rw [ih rs]
      cases r <;> rfl

/-- Length of the decoded result list. -/
theorem decodeResults_length {C : Type} (calls : List C)
    (raws : List (Except Nat Nat)) :
    (decodeResults calls raws).length = min calls.length raws.length := by
  unfold decodeResults
  rw [List.length_zipWith]

/-- The truncated reply list of lines 205-210 is never empty when the reply
was non-empty. -/
theorem truncated_reply_ne_nil {A : Type} (raws : List A) (n : Nat) (hne : raws ≠ []) :
    (if raws.length ≠ n ∧ 1 < raws.length then raws.dropLast else raws) ≠ [] := by
  split
  · rename_i hcond
    intro hemp
    have hl := congrArg List.length hemp
    rw [List.length_dropLast] at hl
    simp only [List.length_nil] at hl
    omega
  · exact hne

/-- Non-empty inputs decode to a non-empty result list. -/
theorem decodeResults_pos {C : Type} (calls : List C) (raws : List (Except Nat Nat))
    (h1 : calls ≠ []) (h2 : raws ≠ []) : 1 ≤ (decodeResults calls raws).length := by
  rw [decodeResults_length]
  cases calls with
  | nil => exact absurd rfl h1
  | cons c cs =>
    cases raws with
    | nil => exact absurd rfl h2
    | cons r rs => simp only [List.length_cons]; omega

/-- The recursion budget of `innerCallF` is irrelevant as long as it covers
the length of the call list. -/
theorem innerCallF_fuel_irrel {C : Type} (orc : MCOracle C) (bs : Nat) :
    ∀ f1 f2 (calls : List C), calls.length ≤ f1 → calls.length ≤ f2 →
      innerCallF orc bs f1 calls = innerCallF orc bs f2 calls := by
  intro f1
  induction f1 using Nat.strong_induction_on with
  | _ f1 ih =>
    intro f2 calls h1 h2
    cases calls with
    | nil => cases f1 <;> cases f2 <;> rfl
    | cons c cs =>
      cases f1 with
      | zero => simp at h1
      | succ k1 =>
        cases f2 with
        | zero => simp at h2
        | succ k2 =>
          have hk1 : k1 < k1 + 1 := Nat.lt_succ_self k1
          have hcc : (c :: cs).length = cs.length + 1 := rfl
          simp only [innerCallF]
          by_cases hbs0 : bs = 0
          · simp [hbs0]
          · simp only [hbs0, if_false]
            by_cases hsp : bs < (c :: cs).length
            · simp only [if_pos hsp]
              rw [ih k1 hk1 k2 ((c :: cs).take bs)
                    (by rw [List.length_take]; omega)
                    (by rw [List.length_take]; omega),
                  ih k1 hk1 k2 ((c :: cs).drop bs)
                    (by rw [List.length_drop]; omega)
                    (by rw [List.length_drop]; omega)]
            · simp only [if_neg hsp]
              split
              · cases cs with
                | nil => rfl
                | cons c2 cs2 =>
                  have hcc2 : (c :: c2 :: cs2).length = cs2.length + 2 := rfl
                  rw [ih k1 hk1 k2 ((c :: c2 :: cs2).take ((c :: c2 :: cs2).length / 2))
                        (by rw [List.length_take]; omega)
                        (by rw [List.length_take]; omega),
                      ih k1 hk1 k2 ((c :: c2 :: cs2).drop ((c :: c2 :: cs2).length / 2))
                        (by rw [List.length_drop]; omega)
                        (by rw [List.length_drop]; omega)]
              · rename_i raws heq
                have hne := (callMulticall_ok orc _ raws heq).1
                have hr2 : 1 ≤ (if raws.length ≠ (c :: cs).length ∧ 1 < raws.length
                    then raws.dropLast else raws).length := by
                  have hch := truncated_reply_ne_nil raws (c :: cs).length hne
                  cases hcase : (if raws.length ≠ (c :: cs).length ∧ 1 < raws.length
                      then raws.dropLast else raws) with
                  | nil => exact absurd hcase hch
                  | cons x xs => simp
                have hres : 1 ≤ (decodeResults (c :: cs)
                    ((if raws.length ≠ (c :: cs).length ∧ 1 < raws.length
                      then raws.dropLast else raws).map Prod.fst)).length := by
                  rw [decodeResults_length, List.length_map]
                  omega
                by_cases hfull : (decodeResults (c :: cs)
                    ((if raws.length ≠ (c :: cs).length ∧ 1 < raws.length
                      then raws.dropLast else raws).map Prod.fst)).length
                    = (c :: cs).length
                · rw [if_pos hfull, if_pos hfull]
                · rw [if_neg hfull, if_neg hfull]
                  rw [ih k1 hk1 k2 ((c :: cs).drop ((decodeResults (c :: cs)
                        ((if raws.length ≠ (c :: cs).length ∧ 1 < raws.length
                          then raws.dropLast else raws).map Prod.fst)).length))
                        (by rw [List.length_drop]; omega)
                        (by rw [List.length_drop]; omega)]

/-- Core invariant of `_inner_call`: with a positive batch size and an
oracle that never returns more results than calls were submitted, the
execution always returns (no exception escapes), with exactly one result and
one gas entry per call, and the results are in input order (slot `i` was
decoded for call `i`). -/
theorem innerCallF_spec {C : Type} (orc : MCOracle C) (bs : Nat) (hbs : 1 ≤ bs)
    (horc : ∀ (cs : List C) l, orc cs = .ok l → l.length ≤ cs.length) :
    ∀ fuel calls, calls.length ≤ fuel →
      ∃ res gas, innerCallF orc bs fuel calls = some (res, gas) ∧
        res.length = calls.length ∧ gas.length = calls.length ∧
        res.map CallResult.call = calls := by
  intro fuel
  induction fuel using Nat.strong_induction_on with
  | _ fuel ih =>
    intro calls hlen
    cases calls with
    | nil => exact ⟨[], [], by cases fuel <;> rfl, rfl, rfl, rfl⟩
    | cons c cs =>
      cases fuel with
      | zero => simp at hlen
      | succ k =>
        have hk : k < k + 1 := Nat.lt_succ_self k
        have hcc : (c :: cs).length = cs.length + 1 := rfl
        have hbs0 : ¬ bs = 0 := by omega
        simp only [innerCallF, hbs0, if_false]
        by_cases hsp : bs < (c :: cs).length
        · simp only [if_pos hsp]
          obtain ⟨r1, g1, e1, hr1, hg1, hm1⟩ :=
            ih k hk ((c :: cs).take bs) (by rw [List.length_take]; omega)
          obtain ⟨r2, g2, e2, hr2, hg2, hm2⟩ :=
            ih k hk ((c :: cs).drop bs) (by rw [List.length_drop]; omega)
          rw [e1, e2]
          refine ⟨r1 ++ r2, g1 ++ g2, rfl, ?_, ?_, ?_⟩
          · rw [List.length_append, hr1, hr2, List.length_take, List.length_drop]
            omega
          · rw [List.length_append, hg1, hg2, List.length_take, List.length_drop]
            omega
          · rw [List.map_append, hm1, hm2, List.take_append_drop]
        · simp only [if_neg hsp]
          split
          · rename_i e heq2
            cases cs with
            | nil => exact ⟨[decodeOne c (.error e)], [none], rfl, rfl, rfl, rfl⟩
            | cons c2 cs2 =>
              have hcc2 : (c :: c2 :: cs2).length = cs2.length + 2 := rfl
              obtain ⟨r1, g1, e1, hr1, hg1, hm1⟩ :=
                ih k hk ((c :: c2 :: cs2).take ((c :: c2 :: cs2).length / 2))
                  (by rw [List.length_take]; omega)
              obtain ⟨r2, g2, e2, hr2, hg2, hm2⟩ :=
                ih k hk ((c :: c2 :: cs2).drop ((c :: c2 :: cs2).length / 2))
                  (by rw [List.length_drop]; omega)
              rw [e1, e2]
              refine ⟨r1 ++ r2, g1 ++ g2, rfl, ?_, ?_, ?_⟩
              · rw [List.length_append, hr1, hr2, List.length_take, List.length_drop]
                omega
              · rw [List.length_append, hg1, hg2, List.length_take, List.length_drop]
                omega
              · rw [List.map_append, hm1, hm2, List.take_append_drop]
          · rename_i raws heq
            have hne := (callMulticall_ok orc _ raws heq).1
            have hraws : raws.length ≤ (c :: cs).length :=
              horc _ raws (callMulticall_ok orc _ raws heq).2
            have hRlen : (if raws.length ≠ (c :: cs).length ∧ 1 < raws.length
                then raws.dropLast else raws).length ≤ (c :: cs).length := by
              split
              · rw [List.length_dropLast]; omega
              · exact hraws
            have hRpos : 1 ≤ (if raws.length ≠ (c :: cs).length ∧ 1 < raws.length
                then raws.dropLast else raws).length := by
              have hch := truncated_reply_ne_nil raws (c :: cs).length hne
              cases hcase : (if raws.length ≠ (c :: cs).length ∧ 1 < raws.length
                  then raws.dropLast else raws) with
              | nil => exact absurd hcase hch
              | cons x xs => simp
            have hreslen : (decodeResults (c :: cs)
                ((if raws.length ≠ (c :: cs).length ∧ 1 < raws.length
                  then raws.dropLast else raws).map Prod.fst)).length
                = (if raws.length ≠ (c :: cs).length ∧ 1 < raws.length
                  then raws.dropLast else raws).length := by
              rw [decodeResults_length, List.length_map]
              omega
            by_cases hfull : (decodeResults (c :: cs)
                ((if raws.length ≠ (c :: cs).length ∧ 1 < raws.length
                  then raws.dropLast else raws).map Prod.fst)).length
                = (c :: cs).length
            · rw [if_pos hfull]
              refine ⟨_, _, rfl, hfull, ?_, ?_⟩
              · rw [List.length_map]
                omega
              · rw [decodeResults_map_call, List.length_map]
                have : (if raws.length ≠ (c :: cs).length ∧ 1 < raws.length
                    then raws.dropLast else raws).length = (c :: cs).length := by omega
                rw [this, List.take_length]
            · rw [if_neg hfull]
              obtain ⟨r2, g2, e2, hr2, hg2, hm2⟩ :=
                ih k hk ((c :: cs).drop ((decodeResults (c :: cs)
                  ((if raws.length ≠ (c :: cs).length ∧ 1 < raws.length
                    then raws.dropLast else raws).map Prod.fst)).length))
                  (by rw [List.length_drop]; omega)
              rw [e2]
              refine ⟨_, _, rfl, ?_, ?_, ?_⟩
              · rw [List.length_append, hr2, List.length_drop]
                omega
              · rw [List.length_append, hg2, List.length_drop, List.length_map]
                omega
              · rw [List.map_append, hm2, decodeResults_map_call, List.length_map]
                rw [show (if raws.length ≠ (c :: cs).length ∧ 1 < raws.length
                    then raws.dropLast else raws).length
                    = (decodeResults (c :: cs)
                      ((if raws.length ≠ (c :: cs).length ∧ 1 < raws.length
                        then raws.dropLast else raws).map Prod.fst)).length from by omega]
                rw [List.take_append_drop]

/-- C3: for every multicall execution over `n` added calls (positive batch
size; the aggregator never returns more results than calls were submitted),
`_inner_call` — and hence `call_with_gas` — returns exactly `n` results and
`n` gas usages, in the order the calls were added, whatever combination of
batch-size slicing, bisection-on-error and gas truncation the recursion went
through; no exception escapes the execution, and an individual call's
failure is recorded as an exception object in its slot (`CallResult.failed`)
with a `none` gas usage. -/
theorem multicall_results_complete {C : Type} (orc : MCOracle C) (bs : Nat)
    (calls : List C) (hbs : 1 ≤ bs)
    (horc : ∀ (cs : List C) l, orc cs = .ok l → l.length ≤ cs.length) :
    (∃ res gas, innerCall orc bs calls = some (res, gas) ∧
      res.length = calls.length ∧ gas.length = calls.length ∧
      res.map CallResult.call = calls) ∧
    (∀ (c : C) (e : Nat), orc [c] = Except.error e →
      innerCall orc bs [c] = some ([CallResult.failed c e], [none])) := by
  constructor
  · exact innerCallF_spec orc bs hbs horc calls.length calls (le_refl _)
  · intro c e he
    have hmc : callMulticall orc [c] = .error e := by
      unfold callMulticall
      rw [he]
    have hbs0 : ¬ bs = 0 := by omega
    have hsp : ¬ bs < ([c] : List C).length := by
      simp only [List.length_singleton]
      omega
    show innerCallF orc bs 1 [c] = _
    simp only [innerCallF, hbs0, if_false, if_neg hsp, hmc]
    rfl

/-- An oracle that answers every call in order (used as the C3 witness). -/
def orcW3 : MCOracle Nat := fun cs => Except.ok (cs.map fun c => (Except.ok c, some 1))

/-- An oracle that runs out of gas after 7 calls (used as the C4 witness). -/
def orcW4 : MCOracle Nat :=
  fun cs => Except.ok ((cs.take 7).map fun c => (Except.ok c, some 1))

/-- Witness for C3: three calls against an oracle that answers each slot in
order; the execution returns three tagged results and three gas usages in
input order, and a failing single call would be recorded in its slot. -/
theorem multicall_results_complete_witness :
    (∃ res gas, innerCall orcW3 2 [4, 5, 6] = some (res, gas) ∧
      res.length = ([4, 5, 6] : List Nat).length ∧
      gas.length = ([4, 5, 6] : List Nat).length ∧
      res.map CallResult.call = [4, 5, 6]) ∧
    (∀ (c : Nat) (e : Nat), orcW3 [c] = Except.error e →
      innerCall orcW3 2 [c] = some ([CallResult.failed c e], [none])) :=
  multicall_results_complete orcW3 2 [4, 5, 6] (by decide)
    (fun cs l h => by
      have h2 : cs.map (fun c => ((Except.ok c : Except Nat Nat), some 1)) = l :=
        by injection h
      rw [← h2, List.length_map])

/-- C4: the gas-truncation step of `_inner_call`: when the aggregator
returned fewer results than the number of submitted calls and more than one
result came back, the last returned result is discarded, the calls starting
at the position of the discarded result are executed recursively, and the
two result/gas lists are concatenated in order; with the oracle
well-behaved, the final result still has exactly one entry per call in
input order. -/
theorem multicall_truncation {C : Type} (orc : MCOracle C) (bs : Nat)
    (calls : List C) (raws : List (Except Nat Nat × Option Nat))
    (hbs : 1 ≤ bs)
    (horc : ∀ (cs : List C) l, orc cs = .ok l → l.length ≤ cs.length)
    (hfit : calls.length ≤ bs)
    (hok : orc calls = .ok raws)
    (hlt : raws.length < calls.length)
    (hgt : 1 < raws.length) :
    innerCall orc bs calls =
      (match innerCall orc bs (calls.drop (raws.length - 1)) with
       | none => none
       | some (r2, g2) =>
          some (decodeResults calls (raws.dropLast.map Prod.fst) ++ r2,
                raws.dropLast.map Prod.snd ++ g2)) ∧
    (∃ res gas, innerCall orc bs calls = some (res, gas) ∧
      res.length = calls.length ∧ gas.length = calls.length ∧
      res.map CallResult.call = calls) := by
  refine ⟨?_, innerCallF_spec orc bs hbs horc calls.length calls (le_refl _)⟩
  cases calls with
  | nil => exact absurd hlt (Nat.not_lt_zero _)
  | cons c cs =>
    have hcc : (c :: cs).length = cs.length + 1 := rfl
    have hbs0 : ¬ bs = 0 := by omega
    have hsp : ¬ bs < (c :: cs).length := by omega
    have hmc : callMulticall orc (c :: cs) = .ok raws := by
      unfold callMulticall
      rw [hok]
      cases raws with
      | nil => simp at hgt
      | cons r rs => rfl
    show innerCallF orc bs (c :: cs).length (c :: cs) = _
    rw [hcc]
    simp only [innerCallF, hbs0, if_false, if_neg hsp]
    split
    · rename_i e heq
      rw [hmc] at heq
      exact absurd heq (by simp)
    · rename_i raws2 heq
      rw [hmc] at heq
      have hr2 : raws2 = raws := by
        injection heq with h
        exact h.symm
      rw [hr2]
      have hR : (if raws.length ≠ (c :: cs).length ∧ 1 < raws.length
          then raws.dropLast else raws) = raws.dropLast := if_pos ⟨by omega, hgt⟩
      rw [hR]
      have hrlen : (decodeResults (c :: cs) (raws.dropLast.map Prod.fst)).length
          = raws.length - 1 := by
        rw [decodeResults_length, List.length_map, List.length_dropLast]
        omega
      have hfull : ¬ (decodeResults (c :: cs) (raws.dropLast.map Prod.fst)).length
          = (c :: cs).length := by
        rw [hrlen]
        omega
      rw [if_neg hfull, hrlen]
      rw [innerCallF_fuel_irrel orc bs cs.length
            ((c :: cs).drop (raws.length - 1)).length ((c :: cs).drop (raws.length - 1))
            (by rw [List.length_drop]; omega) (le_refl _)]
      unfold innerCall
      cases innerCallF orc bs ((c :: cs).drop (raws.length - 1)).length
          ((c :: cs).drop (raws.length - 1)) with
      | none => rfl
      | some p =>
        obtain ⟨r2, g2⟩ := p
        rfl

/-- Witness for C4: ten calls `[0..9]`, the oracle returns only 7 results on
the full list (gas exhaustion) and full results on shorter lists; the 7th
raw result is dropped, calls 7..10 (the suffix `[6, 7, 8, 9]`) are
re-executed, and the final result has length 10 in input order. -/
theorem multicall_truncation_witness :
    (innerCall orcW4 1000 [0, 1, 2, 3, 4, 5, 6, 7, 8, 9] =
      (match innerCall orcW4 1000
          (([0, 1, 2, 3, 4, 5, 6, 7, 8, 9] : List Nat).drop
            (([(Except.ok 0, some 1), (.ok 1, some 1), (.ok 2, some 1),
               (.ok 3, some 1), (.ok 4, some 1), (.ok 5, some 1),
               (.ok 6, some 1)] : List (Except Nat Nat × Option Nat)).length - 1)) with
       | none => none
       | some (r2, g2) =>
          some (decodeResults [0, 1, 2, 3, 4, 5, 6, 7, 8, 9]
                  (([(Except.ok 0, some 1), (.ok 1, some 1), (.ok 2, some 1),
                     (.ok 3, some 1), (.ok 4, some 1), (.ok 5, some 1),
                     (.ok 6, some 1)] : List (Except Nat Nat × Option Nat)).dropLast.map
                       Prod.fst) ++ r2,
                (([(Except.ok 0, some 1), (.ok 1, some 1), (.ok 2, some 1),
                   (.ok 3, some 1), (.ok 4, some 1), (.ok 5, some 1),
                   (.ok 6, some 1)] : List (Except Nat Nat × Option Nat)).dropLast.map
                     Prod.snd) ++ g2))) ∧
    (∃ res gas, innerCall orcW4 1000 [0, 1, 2, 3, 4, 5, 6, 7, 8, 9] = some (res, gas) ∧
      res.length = ([0, 1, 2, 3, 4, 5, 6, 7, 8, 9] : List Nat).length ∧
      gas.length = ([0, 1, 2, 3, 4, 5, 6, 7, 8, 9] : List Nat).length ∧
      res.map CallResult.call = [0, 1, 2, 3, 4, 5, 6, 7, 8, 9]) :=
  multicall_truncation orcW4 1000 [0, 1, 2, 3, 4, 5, 6, 7, 8, 9]
    [(Except.ok 0, some 1), (.ok 1, some 1), (.ok 2, some 1),
     (.ok 3, some 1), (.ok 4, some 1), (.ok 5, some 1), (.ok 6, some 1)]
    (by decide)
    (fun cs l hb => by
      have h2 : (cs.take 7).map (fun c => ((Except.ok c : Except Nat Nat), some 1)) = l :=
        by injection hb
      rw [← h2, List.length_map, List.length_take]
      omega)
    (by decide) (by rfl) (by decide) (by decide)

/-! ### Mode U packed-result decoding (`MultiCall._decode_muilticall`,
Multicall.py lines 389-414) -/

/-- `int.from_bytes(l, byteorder='big')` (also `int(l.hex(), 16)` for a
non-empty byte string). -/
def bytesToNat (l : List Nat) : Nat := l.foldl (fun acc b => acc * 256 + b) 0

/-- The segment-splitting loop of `_decode_muilticall` (lines 391-396):
`data_len` is read from the first two bytes, the slice `[2:data_len]`
becomes the segment, and the stream advances by `data_len` bytes.  The
budget makes the recursion structural (the Python loop would not terminate
if a `data_len` prefix were 0; a budget of `stream.length` covers every
stream whose `data_len` prefixes are positive). -/
def decodeSegmentsF : Nat → List Nat → List (List Nat)
  | _, [] => []
  | 0, _ :: _ => []
  | fuel + 1, b :: bs =>
    let dataLen := bytesToNat ((b :: bs).take 2)
    ((b :: bs).take dataLen).drop 2 :: decodeSegmentsF fuel ((b :: bs).drop dataLen)

/-- One entry of the `raw_returns` list produced by `_decode_muilticall`:
raw return bytes for a successful call, a `ContractLogicError` carrying the
revert payload for a failed call, or the exception raised while decoding a
malformed segment. -/
inductive RawSlot
  | bytes (data : List Nat)
  | logicError (payload : List Nat)
  | decodeFailed
  deriving DecidableEq, Repr

/-- The per-segment decoding of lines 399-413: byte 0 is the success flag
(reading it from an empty segment raises), bytes 1-4 are the big-endian gas
usage (an empty slice raises in `int('', 16)`), the rest is the return data;
an unsuccessful call's return data is wrapped into a `ContractLogicError`;
any exception is recorded in the slot with a `None` gas usage. -/
def decodeSegment (seg : List Nat) : RawSlot × Option Nat :=
  match seg with
  | [] => (.decodeFailed, none)
  | [_] => (.decodeFailed, none)
  | b0 :: r1 :: rest2 =>
    let gas := bytesToNat ((r1 :: rest2).take 4)
    let ret := (r1 :: rest2).drop 4
    if b0 = 1 then (.bytes ret, some gas) else (.logicError ret, some gas)

/-- The undeployed-multicall branch of `_decode_muilticall`: split the byte
stream into segments, then decode each segment. -/
def decodeMulticallU (stream : List Nat) : List (RawSlot × Option Nat) :=
  (decodeSegmentsF stream.length stream).map decodeSegment

/-- The packed segment layout the decoder actually consumes: a 2-byte
big-endian `totalLen` that counts the *whole* segment including the length
prefix itself, a 1-byte success flag, a 4-byte big-endian `gasUsed`, and
`totalLen - 7` bytes of return data. -/
def encodeSegment (s : Bool) (g : Nat) (data : List Nat) : List Nat :=
  [(7 + data.length) / 256 % 256, (7 + data.length) % 256,
   if s then 1 else 0,
   g / 2 ^ 24 % 256, g / 2 ^ 16 % 256, g / 2 ^ 8 % 256, g % 256] ++ data

/-- Modelled from the claim's words: the layout in which `totalLen` counts
only the success flag, the gas usage and the return data (so the return
data would have `totalLen - 5` bytes and a segment would occupy
`totalLen + 2` bytes). -/
def encodeSegmentClaim (s : Bool) (g : Nat) (data : List Nat) : List Nat :=
  [(5 + data.length) / 256 % 256, (5 + data.length) % 256,
   if s then 1 else 0,
   g / 2 ^ 24 % 256, g / 2 ^ 16 % 256, g / 2 ^ 8 % 256, g % 256] ++ data

/-- C9 counterexample: a single segment packed as the claim describes
(`totalLen = 5 + len(returnData)`, here 8 for 3 bytes of return data,
gas 9, success): the decoder does *not* yield one triple with that return
data — it reads the segment as 8 bytes *including* the length prefix,
returning only 1 byte of return data, and misparses the 2 leftover bytes as
a second, malformed segment. -/
theorem decodeMulticallU_counterexample :
    encodeSegmentClaim true 9 [170, 187, 204] = [0, 8, 1, 0, 0, 0, 9, 170, 187, 204] ∧
    decodeMulticallU (encodeSegmentClaim true 9 [170, 187, 204])
      = [(.bytes [170], some 9), (.decodeFailed, none)] ∧
    decodeMulticallU (encodeSegmentClaim true 9 [170, 187, 204])
      ≠ [(.bytes [170, 187, 204], some 9)] := by
  refine ⟨by decide, by decide, by decide⟩

theorem bytesToNat_four (g : Nat) (hg : g < 2 ^ 32) :
    bytesToNat [g / 2 ^ 24 % 256, g / 2 ^ 16 % 256, g / 2 ^ 8 % 256, g % 256] = g := by
  show (((0 * 256 + g / 2 ^ 24 % 256) * 256 + g / 2 ^ 16 % 256) * 256
      + g / 2 ^ 8 % 256) * 256 + g % 256 = g
  omega

theorem bytesToNat_two (n : Nat) (hn : n < 65536) :
    bytesToNat [n / 256 % 256, n % 256] = n := by
  show (0 * 256 + n / 256 % 256) * 256 + n % 256 = n
  omega

/-- One step of the segment-splitting loop on a stream that starts with a
well-formed segment (its 2-byte prefix equals its own full length). -/
theorem decodeSegmentsF_step (k : Nat) (E F : List Nat) (hE : 2 ≤ E.length)
    (hlen : bytesToNat (E.take 2) = E.length) :
    decodeSegmentsF (k + 1) (E ++ F) = E.drop 2 :: decodeSegmentsF k F := by
  cases E with
  | nil => simp at hE
  | cons a E1 =>
    cases E1 with
    | nil => simp at hE
    | cons b E2 =>
      show decodeSegmentsF (k + 1) (a :: b :: (E2 ++ F)) = _
      simp only [decodeSegmentsF]
      have h2 : (a :: b :: (E2 ++ F)).take 2 = [a, b] := rfl
      have h2b : ((a :: b :: E2 : List Nat)).take 2 = [a, b] := rfl
      rw [h2b] at hlen
      rw [h2, hlen]
      rw [show a :: b :: (E2 ++ F) = (a :: b :: E2) ++ F from rfl]
      rw [List.take_left, List.drop_left]

/-- Splitting a stream of code-layout segments yields exactly the segment
bodies, in order. -/
theorem decodeSegmentsF_encode :
    ∀ (segs : List (Bool × Nat × List Nat)) (fuel : Nat),
      ((segs.map (fun e => encodeSegment e.1 e.2.1 e.2.2)).flatten).length ≤ fuel →
      (∀ e ∈ segs, e.2.2.length + 7 < 65536) →
      decodeSegmentsF fuel ((segs.map (fun e => encodeSegment e.1 e.2.1 e.2.2)).flatten)
        = segs.map (fun e => (encodeSegment e.1 e.2.1 e.2.2).drop 2) := by
  intro segs
  induction segs with
  | nil => intro fuel _ _; cases fuel <;> rfl
  | cons e rest ih =>
    intro fuel hfuel hwf
    obtain ⟨s, g, data⟩ := e
    have hlen : (encodeSegment s g data).length = 7 + data.length := by
      simp [encodeSegment]
      omega
    have hwf1 := hwf ⟨s, g, data⟩ (List.mem_cons_self _ _)
    simp only at hwf1
    rw [List.map_cons, List.flatten_cons]
    rw [List.map_cons, List.flatten_cons] at hfuel
    cases fuel with
    | zero =>
      rw [List.length_append, hlen] at hfuel
      omega
    | succ k =>
      rw [decodeSegmentsF_step k (encodeSegment s g data) _
            (by rw [hlen]; omega)
            (by
              have ht : (encodeSegment s g data).take 2
                  = [(7 + data.length) / 256 % 256, (7 + data.length) % 256] := rfl
              rw [ht, bytesToNat_two (7 + data.length) (by omega), hlen])]
      rw [List.map_cons]
      congr 1
      apply ih
      · rw [List.length_append, hlen] at hfuel
        omega
      · intro e2 he2
        exact hwf e2 (List.mem_cons_of_mem _ he2)

/-- Decoding one code-layout segment body recovers its success flag, its
gas usage and its return data. -/
theorem decodeSegment_encode (s : Bool) (g : Nat) (data : List Nat) (hg : g < 2 ^ 32) :
    decodeSegment ((encodeSegment s g data).drop 2)
      = ((if s then RawSlot.bytes data else RawSlot.logicError data), some g) := by
  have hdrop : (encodeSegment s g data).drop 2
      = (if s then 1 else 0) :: g / 2 ^ 24 % 256 :: g / 2 ^ 16 % 256
        :: g / 2 ^ 8 % 256 :: g % 256 :: data := rfl
  rw [hdrop]
  cases s with
  | false =>
    simp [decodeSegment]
    show (((0 * 256 + g / 16777216 % 256) * 256 + g / 65536 % 256) * 256
        + g / 256 % 256) * 256 + g % 256 = g
    omega
  | true =>
    simp [decodeSegment]
    show (((0 * 256 + g / 16777216 % 256) * 256 + g / 65536 % 256) * 256
        + g / 256 % 256) * 256 + g % 256 = g
    omega

/-- C9 (amended): a Mode U (`useRevert=true`) packed result stream is a
sequence of per-call segments, each laid out as a 2-byte `totalLen` *that
counts the whole segment including the length prefix itself*, a 1-byte
success flag, a 4-byte `gasUsed`, and a returnData field of length
`totalLen - 7`; on such a stream `_decode_muilticall` yields exactly one
`(success, gasUsed, returnData)` entry per segment, in order, with the
returnData of that length (a failed call's returnData arrives wrapped in a
`ContractLogicError`). -/
theorem decodeMulticallU_spec (segs : List (Bool × Nat × List Nat))
    (hwf : ∀ e ∈ segs, e.2.2.length + 7 < 65536 ∧ e.2.1 < 2 ^ 32) :
    decodeMulticallU ((segs.map (fun e => encodeSegment e.1 e.2.1 e.2.2)).flatten)
      = segs.map (fun e =>
          ((if e.1 then RawSlot.bytes e.2.2 else RawSlot.logicError e.2.2), some e.2.1)) ∧
    ∀ e ∈ segs, (encodeSegment e.1 e.2.1 e.2.2).length = 7 + e.2.2.length := by
  constructor
  · unfold decodeMulticallU
    rw [decodeSegmentsF_encode segs _ (le_refl _) (fun e he => (hwf e he).1)]
    rw [List.map_map]
    apply List.map_congr_left
    intro e he
    obtain ⟨s, g, data⟩ := e
    exact decodeSegment_encode s g data (hwf _ he).2
  · intro e _
    obtain ⟨s, g, data⟩ := e
    simp [encodeSegment]
    omega

/-- Witness for C9 (amended): a two-segment stream — a successful call with
3 return bytes and gas 5, and a reverted call with 2 payload bytes and
gas 7 — decodes to exactly those two entries in order. -/
theorem decodeMulticallU_spec_witness :
    decodeMulticallU ((([(true, 5, [170, 187, 204]), (false, 7, [1, 2])] :
          List (Bool × Nat × List Nat)).map
        (fun e => encodeSegment e.1 e.2.1 e.2.2)).flatten)
      = [(RawSlot.bytes [170, 187, 204], some 5), (RawSlot.logicError [1, 2], some 7)] ∧
    ∀ e ∈ ([(true, 5, [170, 187, 204]), (false, 7, [1, 2])] :
        List (Bool × Nat × List Nat)),
      (encodeSegment e.1 e.2.1 e.2.2).length = 7 + e.2.2.length := by
  have h := decodeMulticallU_spec [(true, 5, [170, 187, 204]), (false, 7, [1, 2])]
    (by decide)
  exact ⟨h.1, h.2⟩

/-! ### State-override merging (`MultiCall.merge_state_overwrites`,
Multicall.py lines 223-258) -/

/-- Dict lookup on an association list (Python `d[k]` / `k in d`). -/
def alookup {α : Type} (l : List (Nat × α)) (k : Nat) : Option α :=
  (l.find? (fun p => p.1 = k)).map (fun p => p.2)

/-- Python dict assignment `d[k] = v`: an existing key keeps its position,
a new key is appended. -/
def ainsert {α : Type} (l : List (Nat × α)) (k : Nat) (v : α) : List (Nat × α) :=
  if (alookup l k).isSome then l.map (fun p => if p.1 = k then (k, v) else p)
  else l ++ [(k, v)]

/-- A per-account state override (one value of a web3 `StateOverride` dict),
with scalar payloads abstracted as `Nat` and the `state`/`stateDiff`
slot-to-value dicts as association lists in insertion order. -/
structure AccountOverride where
  balance : Option Nat
  nonce : Option Nat
  code : Option Nat
  state : Option (List (Nat × Nat))
  stateDiff : Option (List (Nat × Nat))
  deriving DecidableEq, Repr

/-- A `StateOverride` dict: address → account override. -/
abbrev StateOverrideMap := List (Nat × AccountOverride)

/-- The `stateDiff` merge loop (Multicall.py lines 254-257): each slot of
the incoming diff must be absent from the accumulated diff or carry an equal
value, and is then written; `none` is the `AssertionError`. -/
def mergeStateDiff (prev : List (Nat × Nat)) :
    List (Nat × Nat) → Option (List (Nat × Nat))
  | [] => some prev
  | (slot, value) :: rest =>
    match alookup prev slot with
    | some v0 =>
      if v0 = value then mergeStateDiff (ainsert prev slot value) rest else none
    | none => mergeStateDiff (ainsert prev slot value) rest

/-- The `balance` block of `merge_state_overwrites` (Multicall.py
lines 236-238). -/
def mergeBalance (ov p : AccountOverride) : Option AccountOverride :=
  match ov.balance with
  | none => some p
  | some b => if p.balance.isSome then none else some { p with balance := some b }

/-- The `nonce` block (lines 239-241). -/
def mergeNonce (ov p : AccountOverride) : Option AccountOverride :=
  match ov.nonce with
  | none => some p
  | some nn => if p.nonce.isSome then none else some { p with nonce := some nn }

/-- The `code` block (lines 242-244). -/
def mergeCode (ov p : AccountOverride) : Option AccountOverride :=
  match ov.code with
  | none => some p
  | some cd => if p.code.isSome then none else some { p with code := some cd }

/-- The full-`state` block (lines 245-248): asserts that neither `state`
nor `stateDiff` was accumulated. -/
def mergeStateFull (ov p : AccountOverride) : Option AccountOverride :=
  match ov.state with
  | none => some p
  | some st =>
    if p.state.isSome then none
    else if p.stateDiff.isSome then none
    else some { p with state := some st }

/-- The `stateDiff` block (lines 249-257): asserts `state` is absent from
the (already updated) accumulated override, then merges per slot. -/
def mergeDiffField (ov p : AccountOverride) : Option AccountOverride :=
  match ov.stateDiff with
  | none => some p
  | some sd =>
    if p.state.isSome then none
    else
      match p.stateDiff with
      | none => some { p with stateDiff := some sd }
      | some psd => do
        let m ← mergeStateDiff psd sd
        some { p with stateDiff := some m }

/-- Merging one account override into the already-accumulated override for
the same address (Multicall.py lines 236-257), block by block in source
order; `none` is the `AssertionError`. -/
def mergeAccount (prev0 ov : AccountOverride) : Option AccountOverride := do
  let p1 ← mergeBalance ov prev0
  let p2 ← mergeNonce ov p1
  let p3 ← mergeCode ov p2
  let p4 ← mergeStateFull ov p3
  mergeDiffField ov p4

/-- Merging the entries of one input `StateOverride` dict into the
accumulated dict (the inner loop of lines 231-257): a first contribution for
an address is deep-copied in unchecked, a later one goes through
`mergeAccount`. -/
def mergeOneOverride (merged : StateOverrideMap) :
    StateOverrideMap → Option StateOverrideMap
  | [] => some merged
  | (addr, ov) :: rest =>
    match alookup merged addr with
    | none => mergeOneOverride (ainsert merged addr ov) rest
    | some prev => do
      let m ← mergeAccount prev ov
      mergeOneOverride (ainsert merged addr m) rest

/-- The outer loop of `merge_state_overwrites` over the input list
(lines 228-257); `None` inputs are skipped. -/
def mergeAllGo (merged : StateOverrideMap) :
    List (Option StateOverrideMap) → Option StateOverrideMap
  | [] => some merged
  | none :: rest => mergeAllGo merged rest
  | some ov :: rest => do
    let m ← mergeOneOverride merged ov
    mergeAllGo m rest

/-- `MultiCall.merge_state_overwrites` (lines 223-258): `None` when every
input is `None`, otherwise the merged dict; the outer `Option` is the
`AssertionError` raised on a conflict. -/
def merge_state_overwrites (l : List (Option StateOverrideMap)) :
    Option (Option StateOverrideMap) :=
  if l.all (fun o => o.isNone) then some none
  else (mergeAllGo [] l).map some

/-- The per-address contributions of one input dict: the account overrides
its entries attach to address `a`, in entry order. -/
def contribsOf (m : StateOverrideMap) (a : Nat) : List AccountOverride :=
  (m.filter (fun p => p.1 = a)).map (fun p => p.2)

/-- The per-address contributions of the whole input list, in input order. -/
def contribs (l : List (Option StateOverrideMap)) (a : Nat) : List AccountOverride :=
  (l.map (fun o => match o with
    | none => []
    | some m => contribsOf m a)).flatten

/-- Pairwise consistency of two contributions for the same address (the
earlier one first): at most one contributor each for `balance`, `nonce`,
`code`; at most one full-state replace; full-state and `stateDiff` mutually
exclusive; repeated `stateDiff` slots must agree.  This relation is
symmetric, so `List.Pairwise pairOK` does not depend on the order of the
contributions. -/
def pairOK (c1 c2 : AccountOverride) : Prop :=
  (c2.balance.isSome → c1.balance = none) ∧
  (c2.nonce.isSome → c1.nonce = none) ∧
  (c2.code.isSome → c1.code = none) ∧
  (c2.state.isSome → c1.state = none ∧ c1.stateDiff = none) ∧
  (c2.stateDiff.isSome → c1.state = none) ∧
  (∀ sd1 sd2 k v1 v2, c1.stateDiff = some sd1 → c2.stateDiff = some sd2 →
    alookup sd1 k = some v1 → alookup sd2 k = some v2 → v1 = v2)

/-- Pairwise consistency of a list of inputs: for every address, the
contributions are pairwise consistent. -/
def Consistent (l : List (Option StateOverrideMap)) : Prop :=
  ∀ a, List.Pairwise pairOK (contribs l a)

/-- No single account entry of any input carries both a full-state replace
and a `stateDiff` (the proviso of the amended claim). -/
def separatedInputs (l : List (Option StateOverrideMap)) : Bool :=
  l.all (fun o => (o.getD []).all
    (fun p => !(p.2.state.isSome && p.2.stateDiff.isSome)))

/-- Every `stateDiff` dict of every input has distinct slot keys (a Python
dict cannot hold a key twice). -/
def sdKeysNodup (l : List (Option StateOverrideMap)) : Bool :=
  l.all (fun o => (o.getD []).all
    (fun p => match p.2.stateDiff with
      | none => true
      | some sd => (sd.map Prod.fst).Nodup))

/-- Python value equality of two account overrides: scalar fields and the
full-state dict must be equal, the `stateDiff` dicts must agree as
key-value maps (dict equality ignores insertion order). -/
def accountEquiv (x y : AccountOverride) : Prop :=
  x.balance = y.balance ∧ x.nonce = y.nonce ∧ x.code = y.code ∧ x.state = y.state ∧
  x.stateDiff.isSome = y.stateDiff.isSome ∧
  ∀ k, x.stateDiff.bind (fun sd => alookup sd k)
      = y.stateDiff.bind (fun sd => alookup sd k)

/-- Python value equality of two merged `StateOverride` dicts. -/
def mapEquiv (r1 r2 : StateOverrideMap) : Prop :=
  ∀ a, (alookup r1 a).isSome = (alookup r2 a).isSome ∧
    (∀ x y, alookup r1 a = some x → alookup r2 a = some y → accountEquiv x y)

/-- Equality of two `merge_state_overwrites` outcomes up to dict equality. -/
def resultEquiv : Option (Option StateOverrideMap) → Option (Option StateOverrideMap) → Prop
  | none, none => True
  | some none, some none => True
  | some (some r1), some (some r2) => mapEquiv r1 r2
  | _, _ => False

/-- C5 counterexample: input `A` puts both a full `state` and a `stateDiff`
on address 1 in a *single* account entry, input `B` puts a balance there.
`merge_state_overwrites [A, B]` succeeds even though `A` violates the
claim's state/stateDiff mutual exclusion (so "conflicting inputs raise"
fails), and merging the same two inputs in the other order raises (so the
merge result is *not* independent of the input order). -/
theorem merge_state_overwrites_counterexample :
    (merge_state_overwrites
      [some [(1, ⟨none, none, none, some [(0, 5)], some [(0, 6)]⟩)],
       some [(1, ⟨some 3, none, none, none, none⟩)]]).isSome = true ∧
    merge_state_overwrites
      [some [(1, ⟨some 3, none, none, none, none⟩)],
       some [(1, ⟨none, none, none, some [(0, 5)], some [(0, 6)]⟩)]] = none := by
  refine ⟨by decide, by decide⟩

theorem alookup_cons {α : Type} (k0 : Nat) (v0 : α) (rest : List (Nat × α)) (k : Nat) :
    alookup ((k0, v0) :: rest) k = if k0 = k then some v0 else alookup rest k := by
  unfold alookup
  rw [List.find?_cons]
  by_cases h : k0 = k
  · simp [h]
  · simp [h]

theorem alookup_append {α : Type} (l1 l2 : List (Nat × α)) (k : Nat) :
    alookup (l1 ++ l2) k = (alookup l1 k).or (alookup l2 k) := by
  induction l1 with
  | nil =>
    show alookup l2 k = Option.or (alookup [] k) (alookup l2 k)
    rfl
  | cons p rest ih =>
    obtain ⟨k0, v0⟩ := p
    rw [List.cons_append, alookup_cons, alookup_cons]
    by_cases h : k0 = k
    · simp [h]
    · simp only [if_neg h]
      exact ih

theorem alookup_map_replace_self {α : Type} :
    ∀ (l : List (Nat × α)) (k : Nat) (v : α), (alookup l k).isSome →
      alookup (l.map (fun p => if p.1 = k then (k, v) else p)) k = some v := by
  intro l
  induction l with
  | nil => intro k v h; simp [alookup] at h
  | cons p rest ih =>
    intro k v h
    obtain ⟨k0, v0⟩ := p
    by_cases h0 : k0 = k
    · rw [List.map_cons,
        show (if ((k0, v0) : Nat × α).1 = k then (k, v) else (k0, v0)) = (k, v)
          from by simp [h0],
        alookup_cons, if_pos rfl]
    · rw [List.map_cons,
        show (if ((k0, v0) : Nat × α).1 = k then (k, v) else (k0, v0)) = (k0, v0)
          from by simp [h0],
        alookup_cons, if_neg h0]
      apply ih
      rwa [alookup_cons, if_neg h0] at h

theorem alookup_map_replace_ne {α : Type} :
    ∀ (l : List (Nat × α)) (k k2 : Nat) (v : α), k ≠ k2 →
      alookup (l.map (fun p => if p.1 = k then (k, v) else p)) k2 = alookup l k2 := by
  intro l
  induction l with
  | nil => intro k k2 v _; rfl
  | cons p rest ih =>
    intro k k2 v hne
    obtain ⟨k0, v0⟩ := p
    by_cases h0 : k0 = k
    · rw [List.map_cons,
        show (if ((k0, v0) : Nat × α).1 = k then (k, v) else (k0, v0)) = (k, v)
          from by simp [h0],
        alookup_cons, if_neg hne, alookup_cons, if_neg (h0 ▸ hne ∘ Eq.symm ∘ Eq.symm)]
      · exact ih k k2 v hne
    · rw [List.map_cons,
        show (if ((k0, v0) : Nat × α).1 = k then (k, v) else (k0, v0)) = (k0, v0)
          from by simp [h0],
        alookup_cons, alookup_cons]
      by_cases h2 : k0 = k2
      · simp [h2]
      · rw [if_neg h2, if_neg h2]
        exact ih k k2 v hne

theorem alookup_ainsert {α : Type} (l : List (Nat × α)) (k k2 : Nat) (v : α) :
    alookup (ainsert l k v) k2 = if k = k2 then some v else alookup l k2 := by
  unfold ainsert
  by_cases hk2 : k = k2
  · subst hk2
    rw [if_pos rfl]
    split
    · rename_i hsome
      exact alookup_map_replace_self l k v hsome
    · rename_i hnone
      rw [alookup_append, alookup_cons]
      rw [Option.not_isSome_iff_eq_none] at hnone
      rw [hnone]
      simp
  · rw [if_neg hk2]
    split
    · exact alookup_map_replace_ne l k k2 v hk2
    · rw [alookup_append, alookup_cons, if_neg hk2]
      show (alookup l k2).or (alookup [] k2) = alookup l k2
      cases alookup l k2 <;> rfl

theorem alookup_eq_none_of_not_mem_keys {α : Type} :
    ∀ (l : List (Nat × α)) (k : Nat), k ∉ l.map Prod.fst → alookup l k = none := by
  intro l
  induction l with
  | nil => intro k _; rfl
  | cons p rest ih =>
    intro k hk
    obtain ⟨k0, v0⟩ := p
    rw [List.map_cons, List.mem_cons] at hk
    push_neg at hk
    rw [alookup_cons, if_neg (fun h => hk.1 h.symm)]
    exact ih k hk.2

/-- Characterization of the `stateDiff` merge loop on a diff dict with
distinct keys: it fails exactly when some slot of the incoming diff carries
a different value in the accumulated diff, and on success the merged diff
looks up as "incoming first, then accumulated". -/
theorem mergeStateDiff_spec :
    ∀ (sd prev : List (Nat × Nat)), (sd.map Prod.fst).Nodup →
      (mergeStateDiff prev sd = none ↔
        ∃ k v v0, alookup sd k = some v ∧ alookup prev k = some v0 ∧ v0 ≠ v) ∧
      (∀ out, mergeStateDiff prev sd = some out →
        ∀ k, alookup out k = (alookup sd k).or (alookup prev k)) := by
  intro sd
  induction sd with
  | nil =>
    intro prev _
    constructor
    · constructor
      · intro h; exact absurd h (by simp [mergeStateDiff])
      · rintro ⟨k, v, v0, hk, _, _⟩
        exact absurd hk (by simp [alookup])
    · intro out hout k
      have h1 : prev = out := by simpa [mergeStateDiff] using hout
      rw [← h1]
      rfl
  | cons e rest ih =>
    intro prev hnodup
    obtain ⟨slot, value⟩ := e
    rw [List.map_cons, List.nodup_cons] at hnodup
    obtain ⟨hslot, hrest⟩ := hnodup
    have hrestslot : alookup rest slot = none :=
      alookup_eq_none_of_not_mem_keys rest slot hslot
    obtain ⟨ihfail, ihout⟩ := ih (ainsert prev slot value) hrest
    have hsd_self : alookup ((slot, value) :: rest) slot = some value := by
      rw [alookup_cons, if_pos rfl]
    have hsd_ne : ∀ k, ¬ slot = k →
        alookup ((slot, value) :: rest) k = alookup rest k := by
      intro k hk
      rw [alookup_cons, if_neg hk]
    cases hprev : alookup prev slot with
    | some v0 =>
      by_cases hv : v0 = value
      · rw [hv] at hprev
        have hstep : mergeStateDiff prev ((slot, value) :: rest)
            = mergeStateDiff (ainsert prev slot value) rest := by
          simp only [mergeStateDiff, hprev]
          simp
        constructor
        · rw [hstep, ihfail]
          constructor
          · rintro ⟨k, v, w0, hk, hk0, hne⟩
            by_cases hks : k = slot
            · subst hks
              rw [hrestslot] at hk
              exact absurd hk (by simp)
            · refine ⟨k, v, w0, ?_, ?_, hne⟩
              · rw [hsd_ne k (fun h => hks h.symm)]
                exact hk
              · rwa [alookup_ainsert, if_neg (fun h => hks h.symm)] at hk0
          · rintro ⟨k, v, w0, hk, hk0, hne⟩
            by_cases hks : k = slot
            · subst hks
              rw [hsd_self] at hk
              rw [hprev] at hk0
              have h1 : value = v := by injection hk
              have h2 : value = w0 := by injection hk0
              exact absurd (h2.symm.trans h1) hne
            · refine ⟨k, v, w0, ?_, ?_, hne⟩
              · rwa [hsd_ne k (fun h => hks h.symm)] at hk
              · rwa [alookup_ainsert, if_neg (fun h => hks h.symm)]
        · intro out hout k
          rw [hstep] at hout
          have h3 := ihout out hout k
          by_cases hks : k = slot
          · subst hks
            rw [h3, hrestslot, hsd_self, alookup_ainsert, if_pos rfl]
            rfl
          · rw [h3, hsd_ne k (fun h => hks h.symm),
              alookup_ainsert, if_neg (fun h => hks h.symm)]
      · have hstep : mergeStateDiff prev ((slot, value) :: rest) = none := by
          simp only [mergeStateDiff, hprev]
          rw [if_neg hv]
        constructor
        · rw [hstep]
          constructor
          · intro _
            exact ⟨slot, value, v0, hsd_self, hprev, hv⟩
          · intro _; rfl
        · intro out hout
          rw [hstep] at hout
          exact absurd hout (by simp)
    | none =>
      have hstep : mergeStateDiff prev ((slot, value) :: rest)
          = mergeStateDiff (ainsert prev slot value) rest := by
        simp only [mergeStateDiff, hprev]
      constructor
      · rw [hstep, ihfail]
        constructor
        · rintro ⟨k, v, w0, hk, hk0, hne⟩
          by_cases hks : k = slot
          · subst hks
            rw [hrestslot] at hk
            exact absurd hk (by simp)
          · refine ⟨k, v, w0, ?_, ?_, hne⟩
            · rw [hsd_ne k (fun h => hks h.symm)]
              exact hk
            · rwa [alookup_ainsert, if_neg (fun h => hks h.symm)] at hk0
        · rintro ⟨k, v, w0, hk, hk0, hne⟩
          by_cases hks : k = slot
          · subst hks
            rw [hprev] at hk0
            exact absurd hk0 (by simp)
          · refine ⟨k, v, w0, ?_, ?_, hne⟩
            · rwa [hsd_ne k (fun h => hks h.symm)] at hk
            · rwa [alookup_ainsert, if_neg (fun h => hks h.symm)]
      · intro out hout k
        rw [hstep] at hout
        have h3 := ihout out hout k
        by_cases hks : k = slot
        · subst hks
          rw [h3, hrestslot, hsd_self, alookup_ainsert, if_pos rfl]
          rfl
        · rw [h3, hsd_ne k (fun h => hks h.symm),
            alookup_ainsert, if_neg (fun h => hks h.symm)]

theorem mergeBalance_spec (ov p : AccountOverride) :
    (mergeBalance ov p = none ↔ ov.balance.isSome = true ∧ p.balance.isSome = true) ∧
    (∀ out, mergeBalance ov p = some out →
      out.balance = p.balance.or ov.balance ∧ out.nonce = p.nonce ∧
      out.code = p.code ∧ out.state = p.state ∧ out.stateDiff = p.stateDiff) := by
  cases hcb : ov.balance with
  | none =>
    refine ⟨by simp [mergeBalance, hcb], ?_⟩
    intro out hout
    have h2 : p = out := by simpa [mergeBalance, hcb] using hout
    rw [← h2]
    simp
  | some b =>
    cases hpb : p.balance with
    | some b0 =>
      refine ⟨by simp [mergeBalance, hcb, hpb], ?_⟩
      intro out hout
      simp [mergeBalance, hcb, hpb] at hout
    | none =>
      refine ⟨by simp [mergeBalance, hcb, hpb], ?_⟩
      intro out hout
      have h2 : { p with balance := some b } = out := by
        simpa [mergeBalance, hcb, hpb] using hout
      rw [← h2]
      simp [hpb]

theorem mergeNonce_spec (ov p : AccountOverride) :
    (mergeNonce ov p = none ↔ ov.nonce.isSome = true ∧ p.nonce.isSome = true) ∧
    (∀ out, mergeNonce ov p = some out →
      out.nonce = p.nonce.or ov.nonce ∧ out.balance = p.balance ∧
      out.code = p.code ∧ out.state = p.state ∧ out.stateDiff = p.stateDiff) := by
  cases hcb : ov.nonce with
  | none =>
    refine ⟨by simp [mergeNonce, hcb], ?_⟩
    intro out hout
    have h2 : p = out := by simpa [mergeNonce, hcb] using hout
    rw [← h2]
    simp
  | some b =>
    cases hpb : p.nonce with
    | some b0 =>
      refine ⟨by simp [mergeNonce, hcb, hpb], ?_⟩
      intro out hout
      simp [mergeNonce, hcb, hpb] at hout
    | none =>
      refine ⟨by simp [mergeNonce, hcb, hpb], ?_⟩
      intro out hout
      have h2 : { p with nonce := some b } = out := by
        simpa [mergeNonce, hcb, hpb] using hout
      rw [← h2]
      simp [hpb]

theorem mergeCode_spec (ov p : AccountOverride) :
    (mergeCode ov p = none ↔ ov.code.isSome = true ∧ p.code.isSome = true) ∧
    (∀ out, mergeCode ov p = some out →
      out.code = p.code.or ov.code ∧ out.balance = p.balance ∧
      out.nonce = p.nonce ∧ out.state = p.state ∧ out.stateDiff = p.stateDiff) := by
  cases hcb : ov.code with
  | none =>
    refine ⟨by simp [mergeCode, hcb], ?_⟩
    intro out hout
    have h2 : p = out := by simpa [mergeCode, hcb] using hout
    rw [← h2]
    simp
  | some b =>
    cases hpb : p.code with
    | some b0 =>
      refine ⟨by simp [mergeCode, hcb, hpb], ?_⟩
      intro out hout
      simp [mergeCode, hcb, hpb] at hout
    | none =>
      refine ⟨by simp [mergeCode, hcb, hpb], ?_⟩
      intro out hout
      have h2 : { p with code := some b } = out := by
        simpa [mergeCode, hcb, hpb] using hout
      rw [← h2]
      simp [hpb]

theorem mergeStateFull_spec (ov p : AccountOverride) :
    (mergeStateFull ov p = none ↔ ov.state.isSome = true ∧
      (p.state.isSome = true ∨ p.stateDiff.isSome = true)) ∧
    (∀ out, mergeStateFull ov p = some out →
      out.state = p.state.or ov.state ∧ out.balance = p.balance ∧
      out.nonce = p.nonce ∧ out.code = p.code ∧ out.stateDiff = p.stateDiff) := by
  cases hcb : ov.state with
  | none =>
    refine ⟨by simp [mergeStateFull, hcb], ?_⟩
    intro out hout
    have h2 : p = out := by simpa [mergeStateFull, hcb] using hout
    rw [← h2]
    simp
  | some st =>
    cases hps : p.state with
    | some st0 =>
      refine ⟨by simp [mergeStateFull, hcb, hps], ?_⟩
      intro out hout
      simp [mergeStateFull, hcb, hps] at hout
    | none =>
      cases hpd : p.stateDiff with
      | some psd =>
        refine ⟨by simp [mergeStateFull, hcb, hps, hpd], ?_⟩
        intro out hout
        simp [mergeStateFull, hcb, hps, hpd] at hout
      | none =>
        refine ⟨by simp [mergeStateFull, hcb, hps, hpd], ?_⟩
        intro out hout
        have h2 : { p with state := some st } = out := by
          simpa [mergeStateFull, hcb, hps, hpd] using hout
        rw [← h2]
        simp [hps, hcb, hpd]

theorem mergeDiffField_spec (ov p : AccountOverride)
    (hnodup : ∀ sd, ov.stateDiff = some sd → (sd.map Prod.fst).Nodup) :
    (mergeDiffField ov p = none ↔ ov.stateDiff.isSome = true ∧
      (p.state.isSome = true ∨
        ∃ k v1 v2, p.stateDiff.bind (fun l => alookup l k) = some v1 ∧
          ov.stateDiff.bind (fun l => alookup l k) = some v2 ∧ v1 ≠ v2)) ∧
    (∀ out, mergeDiffField ov p = some out →
      out.balance = p.balance ∧ out.nonce = p.nonce ∧ out.code = p.code ∧
      out.state = p.state ∧
      out.stateDiff.isSome = (p.stateDiff.isSome || ov.stateDiff.isSome) ∧
      ∀ k, out.stateDiff.bind (fun l => alookup l k)
        = (ov.stateDiff.bind (fun l => alookup l k)).or
          (p.stateDiff.bind (fun l => alookup l k))) := by
  cases hcd : ov.stateDiff with
  | none =>
    refine ⟨by simp [mergeDiffField, hcd], ?_⟩
    intro out hout
    have h2 : p = out := by simpa [mergeDiffField, hcd] using hout
    rw [← h2]
    simp [hcd]
  | some sd =>
    have hnd := hnodup sd hcd
    cases hps : p.state with
    | some st0 =>
      refine ⟨by simp [mergeDiffField, hcd, hps], ?_⟩
      intro out hout
      simp [mergeDiffField, hcd, hps] at hout
    | none =>
      cases hpd : p.stateDiff with
      | none =>
        refine ⟨?_, ?_⟩
        · simp [mergeDiffField, hcd, hps, hpd]
        · intro out hout
          have h2 : { p with stateDiff := some sd } = out := by
            simpa [mergeDiffField, hcd, hps, hpd] using hout
          rw [← h2]
          simp [hcd, hpd, hps]
      | some psd =>
        obtain ⟨hfail, hok⟩ := mergeStateDiff_spec sd psd hnd
        cases hm : mergeStateDiff psd sd with
        | none =>
          refine ⟨?_, ?_⟩
          · have hn : mergeDiffField ov p = none := by
              simp [mergeDiffField, hcd, hps, hpd, hm]
            rw [hn]
            simp only [hcd, hpd, hps, Option.isSome_some, true_and, Option.some_bind]
            constructor
            · intro _
              right
              obtain ⟨k, v, v0, h1, h2, h3⟩ := hfail.mp hm
              exact ⟨k, v0, v, h2, h1, h3⟩
            · intro _; trivial
          · intro out hout
            simp [mergeDiffField, hcd, hps, hpd, hm] at hout
        | some m =>
          refine ⟨?_, ?_⟩
          · have hn : mergeDiffField ov p = some { p with stateDiff := some m } := by
              simp [mergeDiffField, hcd, hps, hpd, hm]
            rw [hn]
            simp only [hcd, hpd, hps, Option.isSome_some, true_and, Option.some_bind]
            constructor
            · intro h; exact absurd h (by simp)
            · rintro (h | ⟨k, v1, v2, h1, h2, h3⟩)
              · exact absurd h (by simp)
              · exact absurd (hfail.mpr ⟨k, v2, v1, h2, h1, h3⟩) (by simp [hm])
          · intro out hout
            have h2 : { p with stateDiff := some m } = out := by
              simpa [mergeDiffField, hcd, hps, hpd, hm] using hout
            rw [← h2]
            refine ⟨rfl, rfl, rfl, hps, by simp [hpd, hcd], ?_⟩
            intro k
            simp only [hcd, hpd, Option.some_bind]
            exact hok m hm k

/-- Characterization of `mergeAccount` on a separated incoming override
(no account entry carries both `state` and `stateDiff`) with distinct
`stateDiff` keys: it succeeds exactly when the accumulated override and the
incoming one are pairwise consistent, and the merged fields combine as
"accumulated first, incoming as fallback" (the merged `stateDiff` looks up
incoming-first, which coincides on success). -/
theorem mergeAccount_spec (p c : AccountOverride)
    (hsep : ¬ (c.state.isSome = true ∧ c.stateDiff.isSome = true))
    (hnodup : ∀ sd, c.stateDiff = some sd → (sd.map Prod.fst).Nodup) :
    ((mergeAccount p c).isSome = true ↔ pairOK p c) ∧
    (∀ out, mergeAccount p c = some out →
      out.balance = p.balance.or c.balance ∧
      out.nonce = p.nonce.or c.nonce ∧
      out.code = p.code.or c.code ∧
      out.state = p.state.or c.state ∧
      out.stateDiff.isSome = (p.stateDiff.isSome || c.stateDiff.isSome) ∧
      (∀ k, out.stateDiff.bind (fun l => alookup l k)
        = (c.stateDiff.bind (fun l => alookup l k)).or
          (p.stateDiff.bind (fun l => alookup l k)))) := by
  obtain ⟨f1, o1⟩ := mergeBalance_spec c p
  cases h1 : mergeBalance c p with
  | none =>
    have hG : mergeAccount p c = none := by simp [mergeAccount, h1]
    obtain ⟨hb1, hb2⟩ := f1.mp h1
    refine ⟨?_, ?_⟩
    · rw [hG]
      constructor
      · intro h; exact absurd h (by simp)
      · intro hpk
        rw [hpk.1 hb1] at hb2
        exact absurd hb2 (by simp)
    · intro out hout
      rw [hG] at hout
      exact absurd hout (by simp)
  | some p1 =>
    obtain ⟨e1b, e1n, e1c, e1s, e1d⟩ := o1 p1 h1
    obtain ⟨f2, o2⟩ := mergeNonce_spec c p1
    cases h2 : mergeNonce c p1 with
    | none =>
      have hG : mergeAccount p c = none := by simp [mergeAccount, h1, h2]
      obtain ⟨hb1, hb2⟩ := f2.mp h2
      refine ⟨?_, ?_⟩
      · rw [hG]
        constructor
        · intro h; exact absurd h (by simp)
        · intro hpk
          rw [e1n, hpk.2.1 hb1] at hb2
          exact absurd hb2 (by simp)
      · intro out hout
        rw [hG] at hout
        exact absurd hout (by simp)
    | some p2 =>
      obtain ⟨e2n, e2b, e2c, e2s, e2d⟩ := o2 p2 h2
      obtain ⟨f3, o3⟩ := mergeCode_spec c p2
      cases h3 : mergeCode c p2 with
      | none =>
        have hG : mergeAccount p c = none := by simp [mergeAccount, h1, h2, h3]
        obtain ⟨hb1, hb2⟩ := f3.mp h3
        refine ⟨?_, ?_⟩
        · rw [hG]
          constructor
          · intro h; exact absurd h (by simp)
          · intro hpk
            rw [e2c, e1c, hpk.2.2.1 hb1] at hb2
            exact absurd hb2 (by simp)
        · intro out hout
          rw [hG] at hout
          exact absurd hout (by simp)
      | some p3 =>
        obtain ⟨e3c, e3b, e3n, e3s, e3d⟩ := o3 p3 h3
        obtain ⟨f4, o4⟩ := mergeStateFull_spec c p3
        cases h4 : mergeStateFull c p3 with
        | none =>
          have hG : mergeAccount p c = none := by simp [mergeAccount, h1, h2, h3, h4]
          obtain ⟨hb1, hb2⟩ := f4.mp h4
          refine ⟨?_, ?_⟩
          · rw [hG]
            constructor
            · intro h; exact absurd h (by simp)
            · intro hpk
              obtain ⟨hps, hpd⟩ := hpk.2.2.2.1 hb1
              rcases hb2 with hb2 | hb2
              · rw [e3s, e2s, e1s, hps] at hb2
                exact absurd hb2 (by simp)
              · rw [e3d, e2d, e1d, hpd] at hb2
                exact absurd hb2 (by simp)
          · intro out hout
            rw [hG] at hout
            exact absurd hout (by simp)
        | some p4 =>
          obtain ⟨e4s, e4b, e4n, e4c, e4d⟩ := o4 p4 h4
          obtain ⟨f5, o5⟩ := mergeDiffField_spec c p4 hnodup
          have hG : mergeAccount p c = mergeDiffField c p4 := by
            simp [mergeAccount, h1, h2, h3, h4]
          have hp4b : p4.balance = p.balance.or c.balance := by rw [e4b, e3b, e2b, e1b]
          have hp4n : p4.nonce = p.nonce.or c.nonce := by rw [e4n, e3n, e2n, e1n]
          have hp4c : p4.code = p.code.or c.code := by rw [e4c, e3c, e2c, e1c]
          have hp4s : p4.state = p.state.or c.state := by rw [e4s, e3s, e2s, e1s]
          have hp4d : p4.stateDiff = p.stateDiff := by rw [e4d, e3d, e2d, e1d]
          cases h5 : mergeDiffField c p4 with
          | none =>
            obtain ⟨hb1, hb2⟩ := f5.mp h5
            refine ⟨?_, ?_⟩
            · rw [hG, h5]
              constructor
              · intro h; exact absurd h (by simp)
              · intro hpk
                have hcs : c.state = none := by
                  cases hcs : c.state with
                  | none => rfl
                  | some _ => exact absurd ⟨by rw [hcs]; rfl, hb1⟩ hsep
                have hps : p.state = none := hpk.2.2.2.2.1 hb1
                rcases hb2 with hb2 | hb2
                · rw [hp4s, hps, hcs] at hb2
                  exact absurd hb2 (by simp)
                · obtain ⟨k, v1, v2, hv1, hv2, hne⟩ := hb2
                  rw [hp4d] at hv1
                  cases hpsd : p.stateDiff with
                  | none => rw [hpsd] at hv1; exact absurd hv1 (by simp)
                  | some sd1 =>
                    cases hcsd : c.stateDiff with
                    | none => rw [hcsd] at hv2; exact absurd hv2 (by simp)
                    | some sd2 =>
                      rw [hpsd] at hv1
                      rw [hcsd] at hv2
                      simp only [Option.some_bind] at hv1 hv2
                      exact (hne (hpk.2.2.2.2.2 sd1 sd2 k v1 v2 hpsd hcsd hv1 hv2)).elim
            · intro out hout
              rw [hG, h5] at hout
              exact absurd hout (by simp)
          | some out5 =>
            obtain ⟨e5b, e5n, e5c, e5s, e5i, e5l⟩ := o5 out5 h5
            refine ⟨?_, ?_⟩
            · rw [hG, h5]
              constructor
              · intro _
                refine ⟨?_, ?_, ?_, ?_, ?_, ?_⟩
                · intro hcb
                  cases hpb : p.balance with
                  | none => rfl
                  | some _ =>
                    have : mergeBalance c p = none := f1.mpr ⟨hcb, by rw [hpb]; rfl⟩
                    rw [this] at h1
                    exact absurd h1 (by simp)
                · intro hcn
                  cases hpn : p.nonce with
                  | none => rfl
                  | some _ =>
                    have : mergeNonce c p1 = none :=
                      f2.mpr ⟨hcn, by rw [e1n, hpn]; rfl⟩
                    rw [this] at h2
                    exact absurd h2 (by simp)
                · intro hcc
                  cases hpc : p.code with
                  | none => rfl
                  | some _ =>
                    have : mergeCode c p2 = none :=
                      f3.mpr ⟨hcc, by rw [e2c, e1c, hpc]; rfl⟩
                    rw [this] at h3
                    exact absurd h3 (by simp)
                · intro hcs
                  constructor
                  · cases hps : p.state with
                    | none => rfl
                    | some _ =>
                      have : mergeStateFull c p3 = none :=
                        f4.mpr ⟨hcs, Or.inl (by rw [e3s, e2s, e1s, hps]; rfl)⟩
                      rw [this] at h4
                      exact absurd h4 (by simp)
                  · cases hpd : p.stateDiff with
                    | none => rfl
                    | some _ =>
                      have : mergeStateFull c p3 = none :=
                        f4.mpr ⟨hcs, Or.inr (by rw [e3d, e2d, e1d, hpd]; rfl)⟩
                      rw [this] at h4
                      exact absurd h4 (by simp)
                · intro hcd
                  cases hps : p.state with
                  | none => rfl
                  | some _ =>
                    have hcs : c.state = none := by
                      cases hcs : c.state with
                      | none => rfl
                      | some _ => exact absurd ⟨by rw [hcs]; rfl, hcd⟩ hsep
                    have : mergeDiffField c p4 = none :=
                      f5.mpr ⟨hcd, Or.inl (by rw [hp4s, hps, hcs]; rfl)⟩
                    rw [this] at h5
                    exact absurd h5 (by simp)
                · intro sd1 sd2 k v1 v2 hpsd hcsd hl1 hl2
                  by_contra hne
                  have : mergeDiffField c p4 = none := by
                    refine f5.mpr ⟨by rw [hcsd]; rfl, Or.inr ⟨k, v1, v2, ?_, ?_, hne⟩⟩
                    · rw [hp4d, hpsd]
                      simpa using hl1
                    · rw [hcsd]
                      simpa using hl2
                  rw [this] at h5
                  exact absurd h5 (by simp)
              · intro _; rfl
            · intro out hout
              rw [hG, h5] at hout
              have hoe : out5 = out := by injection hout
              rw [← hoe]
              refine ⟨by rw [e5b, hp4b], by rw [e5n, hp4n], by rw [e5c, hp4c],
                by rw [e5s, hp4s], by rw [e5i, hp4d], ?_⟩
              intro k
              rw [e5l k, hp4d]

/-- The accumulation the merge loop performs for one fixed address: the
first contribution is deep-copied in unchecked, every later one is merged
through `mergeAccount`. -/
def accSeq (cur : Option AccountOverride) :
    List AccountOverride → Option (Option AccountOverride)
  | [] => some cur
  | c :: cs =>
    match cur with
    | none => accSeq (some c) cs
    | some p =>
      match mergeAccount p c with
      | none => none
      | some m => accSeq (some m) cs

/-- Canonical description of the accumulated override for one address in
terms of the contribution list: scalar fields and the full state come from
the unique (first) contributor, the diff is present iff some contribution
has one, and each diff slot holds the first contributed value. -/
def accMatches (cs : List AccountOverride) (acc : AccountOverride) : Prop :=
  acc.balance = cs.findSome? (fun c => c.balance) ∧
  acc.nonce = cs.findSome? (fun c => c.nonce) ∧
  acc.code = cs.findSome? (fun c => c.code) ∧
  acc.state = cs.findSome? (fun c => c.state) ∧
  acc.stateDiff.isSome = cs.any (fun c => c.stateDiff.isSome) ∧
  ∀ k, acc.stateDiff.bind (fun l => alookup l k)
    = cs.findSome? (fun c => c.stateDiff.bind (fun l => alookup l k))

theorem accMatches_single (c : AccountOverride) : accMatches [c] c := by
  refine ⟨?_, ?_, ?_, ?_, ?_, ?_⟩
  · cases hc : c.balance <;> simp [List.findSome?_cons, hc]
  · cases hc : c.nonce <;> simp [List.findSome?_cons, hc]
  · cases hc : c.code <;> simp [List.findSome?_cons, hc]
  · cases hc : c.state <;> simp [List.findSome?_cons, hc]
  · cases hc : c.stateDiff <;> simp [hc]
  · intro k
    cases hc : c.stateDiff with
    | none => simp [List.findSome?_cons, hc]
    | some sd =>
      simp only [List.findSome?_cons, hc, Option.some_bind, List.findSome?_nil]
      cases alookup sd k <;> rfl

/-- In a pairwise-consistent contribution list, any member's diff value for
a slot agrees with the first contributed value for that slot. -/
theorem pairwise_sd_agree :
    ∀ (done : List AccountOverride), List.Pairwise pairOK done →
      ∀ d ∈ done, ∀ (sd1 : List (Nat × Nat)) (k v1 v : Nat),
        d.stateDiff = some sd1 → alookup sd1 k = some v1 →
        done.findSome? (fun c => c.stateDiff.bind (fun l => alookup l k)) = some v →
        v1 = v := by
  intro done
  induction done with
  | nil => intro _ d hd; simp at hd
  | cons d0 rest ih =>
    intro hpw d hd sd1 k v1 v hsd1 hl1 hfs
    rw [List.pairwise_cons] at hpw
    obtain ⟨hd0, hpwrest⟩ := hpw
    rw [List.findSome?_cons] at hfs
    cases hf0 : d0.stateDiff.bind (fun l => alookup l k) with
    | some v0 =>
      rw [hf0] at hfs
      have hv0 : v0 = v := by injection hfs
      rcases List.mem_cons.mp hd with rfl | hd
      · rw [hsd1] at hf0
        simp only [Option.some_bind] at hf0
        rw [hl1] at hf0
        have : v1 = v0 := by injection hf0
        rw [this, hv0]
      · cases hsd0 : d0.stateDiff with
        | none => rw [hsd0] at hf0; exact absurd hf0 (by simp)
        | some sd0 =>
          rw [hsd0] at hf0
          simp only [Option.some_bind] at hf0
          have := (hd0 d hd).2.2.2.2.2 sd0 sd1 k v0 v1 hsd0 hsd1 hf0 hl1
          rw [← this, hv0]
    | none =>
      rw [hf0] at hfs
      rcases List.mem_cons.mp hd with rfl | hd
      · rw [hsd1] at hf0
        simp only [Option.some_bind] at hf0
        rw [hl1] at hf0
        exact absurd hf0 (by simp)
      · exact ih hpwrest d hd sd1 k v1 v hsd1 hl1 hfs

/-- When `acc` canonically summarizes the consistent contributions seen so
far, checking a new contribution against `acc` is the same as checking it
against every earlier contribution. -/
theorem pairOK_bridge (done : List AccountOverride) (acc c : AccountOverride)
    (hm : accMatches done acc) (hpw : List.Pairwise pairOK done) :
    pairOK acc c ↔ ∀ d ∈ done, pairOK d c := by
  obtain ⟨hb, hn, hc', hs, hsd, hsdk⟩ := hm
  constructor
  · intro hpk d hd
    obtain ⟨p1, p2, p3, p4, p5, p6⟩ := hpk
    refine ⟨?_, ?_, ?_, ?_, ?_, ?_⟩
    · intro h
      have := p1 h
      rw [hb, List.findSome?_eq_none_iff] at this
      exact this d hd
    · intro h
      have := p2 h
      rw [hn, List.findSome?_eq_none_iff] at this
      exact this d hd
    · intro h
      have := p3 h
      rw [hc', List.findSome?_eq_none_iff] at this
      exact this d hd
    · intro h
      obtain ⟨ha1, ha2⟩ := p4 h
      constructor
      · rw [hs, List.findSome?_eq_none_iff] at ha1
        exact ha1 d hd
      · have : (done.any (fun c => c.stateDiff.isSome)) = false := by
          rw [← hsd, ha2]; rfl
        rw [List.any_eq_false] at this
        have hdnone := this d hd
        cases hds : d.stateDiff with
        | none => rfl
        | some sd => rw [hds] at hdnone; exact absurd rfl hdnone
    · intro h
      have := p5 h
      rw [hs, List.findSome?_eq_none_iff] at this
      exact this d hd
    · intro sd1 sd2 k v1 v2 hd1 hc2 hl1 hl2
      cases hfs : done.findSome? (fun c => c.stateDiff.bind (fun l => alookup l k)) with
      | none =>
        rw [List.findSome?_eq_none_iff] at hfs
        have := hfs d hd
        rw [hd1] at this
        simp only [Option.some_bind] at this
        rw [hl1] at this
        exact absurd this (by simp)
      | some v =>
        have hv1v : v1 = v := pairwise_sd_agree done hpw d hd sd1 k v1 v hd1 hl1 hfs
        have hacc := (hsdk k).trans hfs
        cases hps : acc.stateDiff with
        | none => rw [hps] at hacc; exact absurd hacc (by simp)
        | some psd =>
          rw [hps] at hacc
          simp only [Option.some_bind] at hacc
          have := p6 psd sd2 k v v2 hps hc2 hacc hl2
          rw [hv1v, this]
  · intro hall
    refine ⟨?_, ?_, ?_, ?_, ?_, ?_⟩
    · intro h
      rw [hb, List.findSome?_eq_none_iff]
      intro d hd
      exact (hall d hd).1 h
    · intro h
      rw [hn, List.findSome?_eq_none_iff]
      intro d hd
      exact (hall d hd).2.1 h
    · intro h
      rw [hc', List.findSome?_eq_none_iff]
      intro d hd
      exact (hall d hd).2.2.1 h
    · intro h
      constructor
      · rw [hs, List.findSome?_eq_none_iff]
        intro d hd
        exact ((hall d hd).2.2.2.1 h).1
      · have : (done.any (fun c => c.stateDiff.isSome)) = false := by
          rw [List.any_eq_false]
          intro d hd hsome
          have := ((hall d hd).2.2.2.1 h).2
          rw [this] at hsome
          exact absurd hsome (by simp)
        rw [this] at hsd
        cases hps : acc.stateDiff with
        | none => rfl
        | some psd => rw [hps] at hsd; exact absurd hsd (by simp)
    · intro h
      rw [hs, List.findSome?_eq_none_iff]
      intro d hd
      exact (hall d hd).2.2.2.2.1 h
    · intro sd1 sd2 k v1 v2 h1 h2 hl1 hl2
      have hacc : done.findSome? (fun c => c.stateDiff.bind (fun l => alookup l k))
          = some v1 := by
        rw [← hsdk k, h1]
        simp only [Option.some_bind]
        exact hl1
      obtain ⟨d, hd, hfd⟩ := List.exists_of_findSome?_eq_some hacc
      cases hds : d.stateDiff with
      | none => rw [hds] at hfd; exact absurd hfd (by simp)
      | some sdd =>
        rw [hds] at hfd
        simp only [Option.some_bind] at hfd
        exact (hall d hd).2.2.2.2.2 sdd sd2 k v1 v2 hds h2 hfd hl2

theorem findSome?_singleton {α β : Type} (f : α → Option β) (c : α) :
    [c].findSome? f = f c := by
  cases hc : f c <;> simp [List.findSome?_cons, hc]

/-- One merge step extends the canonical summary by the new contribution. -/
theorem accMatches_step (done : List AccountOverride) (acc c m : AccountOverride)
    (hm : accMatches done acc) (hpk : pairOK acc c)
    (hob : m.balance = acc.balance.or c.balance)
    (hon : m.nonce = acc.nonce.or c.nonce)
    (hoc : m.code = acc.code.or c.code)
    (hos : m.state = acc.state.or c.state)
    (hosd : m.stateDiff.isSome = (acc.stateDiff.isSome || c.stateDiff.isSome))
    (hok : ∀ k, m.stateDiff.bind (fun l => alookup l k)
      = (c.stateDiff.bind (fun l => alookup l k)).or
        (acc.stateDiff.bind (fun l => alookup l k))) :
    accMatches (done ++ [c]) m := by
  obtain ⟨hm1, hm2, hm3, hm4, hm5, hm6⟩ := hm
  refine ⟨?_, ?_, ?_, ?_, ?_, ?_⟩
  · rw [hob, hm1, List.findSome?_append, findSome?_singleton]
  · rw [hon, hm2, List.findSome?_append, findSome?_singleton]
  · rw [hoc, hm3, List.findSome?_append, findSome?_singleton]
  · rw [hos, hm4, List.findSome?_append, findSome?_singleton]
  · rw [hosd, hm5, List.any_append, List.any_cons, List.any_nil, Bool.or_false]
  · intro k
    rw [List.findSome?_append, findSome?_singleton, hok k, ← hm6 k]
    cases hcs : c.stateDiff with
    | none => simp
    | some sd2 =>
      simp only [Option.some_bind]
      cases hl2 : alookup sd2 k with
      | none => simp
      | some v2 =>
        cases hps : acc.stateDiff with
        | none => simp
        | some psd =>
          simp only [Option.some_bind]
          cases hl1 : alookup psd k with
          | none => simp
          | some v1 =>
            have := hpk.2.2.2.2.2 psd sd2 k v1 v2 hps hcs hl1 hl2
            rw [this]

theorem accSeq_cons_none (c : AccountOverride) (cs : List AccountOverride) :
    accSeq none (c :: cs) = accSeq (some c) cs := rfl

theorem accSeq_cons_some (p c : AccountOverride) (cs : List AccountOverride) :
    accSeq (some p) (c :: cs) = match mergeAccount p c with
      | none => none
      | some m => accSeq (some m) cs := rfl

/-- Continuing the per-address fold from a canonical summary of a consistent
prefix either fails - exactly when pairwise consistency of the whole list is
broken - or succeeds with the canonical summary of the whole list. -/
theorem accSeq_go (cs : List AccountOverride) :
    ∀ (done : List AccountOverride) (acc : AccountOverride),
      (∀ c ∈ cs, ¬ (c.state.isSome = true ∧ c.stateDiff.isSome = true)) →
      (∀ c ∈ cs, ∀ sd, c.stateDiff = some sd → (sd.map Prod.fst).Nodup) →
      accMatches done acc →
      List.Pairwise pairOK done →
      (accSeq (some acc) cs = none ∧ ¬ List.Pairwise pairOK (done ++ cs)) ∨
      (∃ out, accSeq (some acc) cs = some (some out) ∧
        List.Pairwise pairOK (done ++ cs) ∧ accMatches (done ++ cs) out) := by
  induction cs with
  | nil =>
    intro done acc _ _ hm hpw
    right
    refine ⟨acc, rfl, ?_, ?_⟩
    · rw [List.append_nil]; exact hpw
    · rw [List.append_nil]; exact hm
  | cons c cs ih =>
    intro done acc hsep hnodup hm hpw
    have hsepc := hsep c (List.mem_cons_self c cs)
    have hnodupc := hnodup c (List.mem_cons_self c cs)
    obtain ⟨hiff, hout⟩ := mergeAccount_spec acc c hsepc hnodupc
    have hbr := pairOK_bridge done acc c hm hpw
    cases hmc : mergeAccount acc c with
    | none =>
      left
      constructor
      · rw [accSeq_cons_some, hmc]
      · intro hpw2
        have hpk : pairOK acc c := by
          apply hbr.mpr
          intro d hd
          exact (List.pairwise_append.mp hpw2).2.2 d hd c (List.mem_cons_self c cs)
        have := hiff.mpr hpk
        rw [hmc] at this
        exact absurd this (by simp)
    | some m =>
      have hpk : pairOK acc c := hiff.mp (by rw [hmc]; rfl)
      obtain ⟨hob, hon, hoc, hos, hosd, hok⟩ := hout m hmc
      have hm2 : accMatches (done ++ [c]) m :=
        accMatches_step done acc c m hm hpk hob hon hoc hos hosd hok
      have hpw2 : List.Pairwise pairOK (done ++ [c]) := by
        rw [List.pairwise_append]
        refine ⟨hpw, by simp, ?_⟩
        intro d hd b hb
        rw [List.mem_singleton] at hb
        subst hb
        exact hbr.mp hpk d hd
      have ihres := ih (done ++ [c]) m
        (fun x hx => hsep x (List.mem_cons_of_mem _ hx))
        (fun x hx => hnodup x (List.mem_cons_of_mem _ hx)) hm2 hpw2
      have happ : (done ++ [c]) ++ cs = done ++ (c :: cs) := by
        rw [List.append_assoc, List.singleton_append]
      have hseq : accSeq (some acc) (c :: cs) = accSeq (some m) cs := by
        rw [accSeq_cons_some, hmc]
      rcases ihres with ⟨h1, h2⟩ | ⟨out, h1, h2, h3⟩
      · left
        rw [happ] at h2
        exact ⟨by rw [hseq]; exact h1, h2⟩
      · right
        rw [happ] at h2 h3
        exact ⟨out, by rw [hseq]; exact h1, h2, h3⟩

/-- Entry form of the per-address fold: starting from no accumulated entry,
success is pairwise consistency and the result is the canonical summary. -/
theorem accSeq_spec (cs : List AccountOverride)
    (hsep : ∀ c ∈ cs, ¬ (c.state.isSome = true ∧ c.stateDiff.isSome = true))
    (hnodup : ∀ c ∈ cs, ∀ sd, c.stateDiff = some sd → (sd.map Prod.fst).Nodup) :
    (accSeq none cs = none ∧ ¬ List.Pairwise pairOK cs) ∨
    (cs = [] ∧ accSeq none cs = some none) ∨
    (∃ out, accSeq none cs = some (some out) ∧
      List.Pairwise pairOK cs ∧ accMatches cs out) := by
  cases cs with
  | nil => right; left; exact ⟨rfl, rfl⟩
  | cons c cs =>
    have hgo := accSeq_go cs [c] c
      (fun x hx => hsep x (List.mem_cons_of_mem _ hx))
      (fun x hx => hnodup x (List.mem_cons_of_mem _ hx))
      (accMatches_single c) (by simp)
    rw [List.singleton_append] at hgo
    rcases hgo with ⟨h1, h2⟩ | ⟨out, h1, h2, h3⟩
    · left
      exact ⟨by rw [accSeq_cons_none]; exact h1, h2⟩
    · right; right
      exact ⟨out, by rw [accSeq_cons_none]; exact h1, h2, h3⟩

/-- `pairOK` is symmetric, so pairwise consistency of the contributions for
an address does not depend on their order. -/
theorem pairOK_symm (c1 c2 : AccountOverride) (h : pairOK c1 c2) : pairOK c2 c1 := by
  obtain ⟨h1, h2, h3, h4, h5, h6⟩ := h
  refine ⟨?_, ?_, ?_, ?_, ?_, ?_⟩
  · intro hb
    cases hc : c2.balance with
    | none => rfl
    | some b => rw [h1 (by rw [hc]; rfl)] at hb; exact absurd hb (by simp)
  · intro hb
    cases hc : c2.nonce with
    | none => rfl
    | some b => rw [h2 (by rw [hc]; rfl)] at hb; exact absurd hb (by simp)
  · intro hb
    cases hc : c2.code with
    | none => rfl
    | some b => rw [h3 (by rw [hc]; rfl)] at hb; exact absurd hb (by simp)
  · intro hb
    constructor
    · cases hc : c2.state with
      | none => rfl
      | some b => rw [(h4 (by rw [hc]; rfl)).1] at hb; exact absurd hb (by simp)
    · cases hc : c2.stateDiff with
      | none => rfl
      | some sd => rw [h5 (by rw [hc]; rfl)] at hb; exact absurd hb (by simp)
  · intro hb
    cases hc : c2.state with
    | none => rfl
    | some b => rw [(h4 (by rw [hc]; rfl)).2] at hb; exact absurd hb (by simp)
  · intro sd1 sd2 k v1 v2 hd1 hd2 hl1 hl2
    exact (h6 sd2 sd1 k v2 v1 hd2 hd1 hl2 hl1).symm

theorem accSeq_append (xs ys : List AccountOverride) :
    ∀ cur, accSeq cur (xs ++ ys) = match accSeq cur xs with
      | none => none
      | some mid => accSeq mid ys := by
  induction xs with
  | nil => intro cur; rfl
  | cons x xs ih =>
    intro cur
    cases cur with
    | none =>
      rw [List.cons_append, accSeq_cons_none, accSeq_cons_none, ih]
    | some p =>
      rw [List.cons_append, accSeq_cons_some, accSeq_cons_some]
      cases hmc : mergeAccount p x with
      | none => rfl
      | some m => exact ih (some m)

theorem contribsOf_nil (a : Nat) : contribsOf [] a = [] := rfl

theorem contribsOf_cons (addr : Nat) (ov : AccountOverride)
    (rest : StateOverrideMap) (a : Nat) :
    contribsOf ((addr, ov) :: rest) a
      = if addr = a then ov :: contribsOf rest a else contribsOf rest a := by
  by_cases h : addr = a
  · rw [if_pos h]
    simp [contribsOf, List.filter_cons, h]
  · rw [if_neg h]
    simp [contribsOf, List.filter_cons, h]

theorem contribs_cons (o : Option StateOverrideMap)
    (rest : List (Option StateOverrideMap)) (a : Nat) :
    contribs (o :: rest) a
      = (match o with | none => [] | some m => contribsOf m a) ++ contribs rest a := by
  cases o <;> rfl

/-- The inner merge loop, address by address: it fails exactly when the
per-address fold fails somewhere, and on success the output dict holds the
per-address fold results. -/
theorem mergeOneOverride_pointwise (m : StateOverrideMap) :
    ∀ (merged : StateOverrideMap),
      (mergeOneOverride merged m = none ∧
        ∃ a, accSeq (alookup merged a) (contribsOf m a) = none) ∨
      (∃ r, mergeOneOverride merged m = some r ∧
        ∀ a, accSeq (alookup merged a) (contribsOf m a) = some (alookup r a)) := by
  induction m with
  | nil =>
    intro merged
    right
    exact ⟨merged, rfl, fun a => rfl⟩
  | cons p rest ih =>
    intro merged
    obtain ⟨addr, ov⟩ := p
    cases hprev : alookup merged addr with
    | none =>
      have hun : mergeOneOverride merged ((addr, ov) :: rest)
          = mergeOneOverride (ainsert merged addr ov) rest := by
        show (match alookup merged addr with
          | none => mergeOneOverride (ainsert merged addr ov) rest
          | some prev => do
            let m ← mergeAccount prev ov
            mergeOneOverride (ainsert merged addr m) rest) = _
        rw [hprev]
      have hacc : ∀ a, accSeq (alookup merged a) (contribsOf ((addr, ov) :: rest) a)
          = accSeq (alookup (ainsert merged addr ov) a) (contribsOf rest a) := by
        intro a
        rw [contribsOf_cons, alookup_ainsert]
        by_cases hk : addr = a
        · rw [if_pos hk, if_pos hk]
          rw [← hk, hprev, accSeq_cons_none]
        · rw [if_neg hk, if_neg hk]
      rcases ih (ainsert merged addr ov) with ⟨h1, a, h2⟩ | ⟨r, h1, h2⟩
      · left
        exact ⟨by rw [hun]; exact h1, a, by rw [hacc a]; exact h2⟩
      · right
        exact ⟨r, by rw [hun]; exact h1, fun a => by rw [hacc a]; exact h2 a⟩
    | some prev =>
      have hun : mergeOneOverride merged ((addr, ov) :: rest)
          = match mergeAccount prev ov with
            | none => none
            | some nv => mergeOneOverride (ainsert merged addr nv) rest := by
        show (match alookup merged addr with
          | none => mergeOneOverride (ainsert merged addr ov) rest
          | some prev => do
            let m ← mergeAccount prev ov
            mergeOneOverride (ainsert merged addr m) rest) = _
        rw [hprev]
        show (mergeAccount prev ov).bind
            (fun m => mergeOneOverride (ainsert merged addr m) rest) = _
        cases mergeAccount prev ov <;> rfl
      cases hmc : mergeAccount prev ov with
      | none =>
        left
        constructor
        · rw [hun, hmc]
        · refine ⟨addr, ?_⟩
          rw [contribsOf_cons, if_pos rfl, hprev, accSeq_cons_some, hmc]
      | some nv =>
        have hacc : ∀ a, accSeq (alookup merged a) (contribsOf ((addr, ov) :: rest) a)
            = accSeq (alookup (ainsert merged addr nv) a) (contribsOf rest a) := by
          intro a
          rw [contribsOf_cons, alookup_ainsert]
          by_cases hk : addr = a
          · rw [if_pos hk, if_pos hk]
            rw [← hk, hprev, accSeq_cons_some, hmc]
          · rw [if_neg hk, if_neg hk]
        rcases ih (ainsert merged addr nv) with ⟨h1, a, h2⟩ | ⟨r, h1, h2⟩
        · left
          exact ⟨by rw [hun, hmc]; exact h1, a, by rw [hacc a]; exact h2⟩
        · right
          exact ⟨r, by rw [hun, hmc]; exact h1, fun a => by rw [hacc a]; exact h2 a⟩

/-- The outer merge loop, address by address. -/
theorem mergeAllGo_pointwise (l : List (Option StateOverrideMap)) :
    ∀ (merged : StateOverrideMap),
      (mergeAllGo merged l = none ∧
        ∃ a, accSeq (alookup merged a) (contribs l a) = none) ∨
      (∃ r, mergeAllGo merged l = some r ∧
        ∀ a, accSeq (alookup merged a) (contribs l a) = some (alookup r a)) := by
  induction l with
  | nil =>
    intro merged
    right
    exact ⟨merged, rfl, fun a => rfl⟩
  | cons o rest ih =>
    intro merged
    cases o with
    | none =>
      have hun : mergeAllGo merged (none :: rest) = mergeAllGo merged rest := rfl
      have hacc : ∀ a, contribs (none :: rest) a = contribs rest a := by
        intro a
        rw [contribs_cons, List.nil_append]
      rcases ih merged with ⟨h1, a, h2⟩ | ⟨r, h1, h2⟩
      · left
        exact ⟨by rw [hun]; exact h1, a, by rw [hacc a]; exact h2⟩
      · right
        exact ⟨r, by rw [hun]; exact h1, fun a => by rw [hacc a]; exact h2 a⟩
    | some ov =>
      have hun : mergeAllGo merged (some ov :: rest)
          = match mergeOneOverride merged ov with
            | none => none
            | some m => mergeAllGo m rest := by
        show (mergeOneOverride merged ov).bind (fun m => mergeAllGo m rest) = _
        cases mergeOneOverride merged ov <;> rfl
      have hacc : ∀ a, accSeq (alookup merged a) (contribs (some ov :: rest) a)
          = match accSeq (alookup merged a) (contribsOf ov a) with
            | none => none
            | some mid => accSeq mid (contribs rest a) := by
        intro a
        rw [contribs_cons, accSeq_append]
      rcases mergeOneOverride_pointwise ov merged with ⟨h1, a, h2⟩ | ⟨r, h1, h2⟩
      · left
        constructor
        · rw [hun, h1]
        · exact ⟨a, by rw [hacc a, h2]⟩
      · rcases ih r with ⟨g1, a, g2⟩ | ⟨r2, g1, g2⟩
        · left
          constructor
          · rw [hun, h1]; exact g1
          · exact ⟨a, by rw [hacc a, h2 a]; exact g2⟩
        · right
          refine ⟨r2, by rw [hun, h1]; exact g1, ?_⟩
          intro a
          rw [hacc a, h2 a]
          exact g2 a

theorem contribs_nil_of_all_none (l : List (Option StateOverrideMap))
    (h : l.all (fun o => o.isNone) = true) (a : Nat) : contribs l a = [] := by
  induction l with
  | nil => rfl
  | cons o rest ih =>
    rw [List.all_cons, Bool.and_eq_true] at h
    rw [contribs_cons, ih h.2]
    cases o with
    | none => rfl
    | some m => exact absurd h.1 (by simp)

/-- Every contribution for an address comes from an account entry of one of
the (non-`None`) input dicts, keyed by that address. -/
theorem mem_contribs (l : List (Option StateOverrideMap)) (a : Nat)
    (c : AccountOverride) (hc : c ∈ contribs l a) :
    ∃ m, some m ∈ l ∧ (a, c) ∈ m := by
  induction l with
  | nil => exact absurd hc (List.not_mem_nil c)
  | cons o rest ih =>
    rw [contribs_cons, List.mem_append] at hc
    rcases hc with hc | hc
    · cases o with
      | none => exact absurd hc (List.not_mem_nil c)
      | some m =>
        refine ⟨m, List.mem_cons_self _ _, ?_⟩
        obtain ⟨p, hp, hpc⟩ := List.mem_map.mp hc
        have hp2 := List.mem_filter.mp hp
        have hfst : p.1 = a := by
          have := hp2.2
          exact of_decide_eq_true this
        have : p = (a, c) := by
          rw [← hfst, ← hpc]
        rw [← this]
        exact hp2.1
    · obtain ⟨m, hm, hmem⟩ := ih hc
      exact ⟨m, List.mem_cons_of_mem _ hm, hmem⟩

/-- `separatedInputs` gives the state/stateDiff separation of every
contribution. -/
theorem sep_of_separatedInputs (l : List (Option StateOverrideMap))
    (h : separatedInputs l = true) (a : Nat) :
    ∀ c ∈ contribs l a, ¬ (c.state.isSome = true ∧ c.stateDiff.isSome = true) := by
  intro c hc
  obtain ⟨m, hm, hmem⟩ := mem_contribs l a c hc
  rw [separatedInputs, List.all_eq_true] at h
  have h2 := h (some m) hm
  rw [List.all_eq_true] at h2
  have h3 := h2 (a, c) hmem
  intro ⟨hs, hd⟩
  simp only [hs, hd, Bool.and_self, Bool.not_true] at h3
  exact absurd h3 (by simp)

/-- `sdKeysNodup` gives distinct slot keys for every contribution's diff. -/
theorem nodup_of_sdKeysNodup (l : List (Option StateOverrideMap))
    (h : sdKeysNodup l = true) (a : Nat) :
    ∀ c ∈ contribs l a, ∀ sd, c.stateDiff = some sd → (sd.map Prod.fst).Nodup := by
  intro c hc sd hsd
  obtain ⟨m, hm, hmem⟩ := mem_contribs l a c hc
  rw [sdKeysNodup, List.all_eq_true] at h
  have h2 := h (some m) hm
  rw [List.all_eq_true] at h2
  have h3 := h2 (a, c) hmem
  simp only [hsd] at h3
  exact of_decide_eq_true h3

theorem all_perm {α : Type} (p : α → Bool) (l1 l2 : List α) (hp : l1.Perm l2) :
    l1.all p = l2.all p := by
  cases h2 : l2.all p with
  | true =>
    rw [List.all_eq_true] at h2
    rw [List.all_eq_true]
    intro x hx
    exact h2 x (hp.mem_iff.mp hx)
  | false =>
    cases h1 : l1.all p with
    | false => rfl
    | true =>
      rw [List.all_eq_true] at h1
      have : l2.all p = true := List.all_eq_true.mpr (fun x hx => h1 x (hp.mem_iff.mpr hx))
      rw [h2] at this
      exact absurd this (by simp)

theorem any_perm {α : Type} (p : α → Bool) (l1 l2 : List α) (hp : l1.Perm l2) :
    l1.any p = l2.any p := by
  cases h2 : l2.any p with
  | true =>
    obtain ⟨x, hx, hpx⟩ := List.any_eq_true.mp h2
    rw [List.any_eq_true]
    exact ⟨x, hp.mem_iff.mpr hx, hpx⟩
  | false =>
    cases h1 : l1.any p with
    | false => rfl
    | true =>
      obtain ⟨x, hx, hpx⟩ := List.any_eq_true.mp h1
      have : l2.any p = true := List.any_eq_true.mpr ⟨x, hp.mem_iff.mp hx, hpx⟩
      rw [h2] at this
      exact absurd this (by simp)

/-- Reordering the input list reorders each address's contributions. -/
theorem contribs_perm (l l2 : List (Option StateOverrideMap)) (hp : l.Perm l2)
    (a : Nat) : (contribs l a).Perm (contribs l2 a) :=
  List.Perm.flatten (hp.map _)

/-- `findSome?` is permutation-invariant as soon as all hits agree. -/
theorem findSome_eq_of_perm {α β : Type} (f : α → Option β)
    (l1 l2 : List α) (hp : l1.Perm l2)
    (huniq : ∀ x ∈ l1, ∀ y ∈ l1, ∀ bx bz, f x = some bx → f y = some bz → bx = bz) :
    l1.findSome? f = l2.findSome? f := by
  cases h1 : l1.findSome? f with
  | none =>
    rw [List.findSome?_eq_none_iff] at h1
    symm
    rw [List.findSome?_eq_none_iff]
    intro x hx
    exact h1 x (hp.mem_iff.mpr hx)
  | some b =>
    obtain ⟨x, hx, hfx⟩ := List.exists_of_findSome?_eq_some h1
    cases h2 : l2.findSome? f with
    | none =>
      rw [List.findSome?_eq_none_iff] at h2
      have := h2 x (hp.mem_iff.mp hx)
      rw [hfx] at this
      exact absurd this (by simp)
    | some b2 =>
      obtain ⟨y, hy, hfy⟩ := List.exists_of_findSome?_eq_some h2
      rw [huniq x hx y (hp.mem_iff.mpr hy) b b2 hfx hfy]

/-- Two elements of a pairwise-consistent list are consistent (in some
order) or equal. -/
theorem pairOK_of_mem (cs : List AccountOverride)
    (hpw : List.Pairwise pairOK cs) (x y : AccountOverride)
    (hx : x ∈ cs) (hy : y ∈ cs) : x = y ∨ pairOK x y := by
  by_cases hxy : x = y
  · left; exact hxy
  · right
    exact List.Pairwise.forall (fun a b h => pairOK_symm a b h) hpw hx hy hxy

/-- Canonical summaries of permuted consistent contribution lists are equal
as Python values. -/
theorem accMatches_perm_equiv (cs1 cs2 : List AccountOverride) (hp : cs1.Perm cs2)
    (hpw : List.Pairwise pairOK cs1) (o1 o2 : AccountOverride)
    (h1 : accMatches cs1 o1) (h2 : accMatches cs2 o2) : accountEquiv o1 o2 := by
  obtain ⟨b1, n1, c1, s1, d1, k1⟩ := h1
  obtain ⟨b2, n2, c2, s2, d2, k2⟩ := h2
  refine ⟨?_, ?_, ?_, ?_, ?_, ?_⟩
  · rw [b1, b2]
    apply findSome_eq_of_perm _ _ _ hp
    intro x hx y hy bx bz hfx hfy
    rcases pairOK_of_mem cs1 hpw x y hx hy with rfl | hok
    · rw [hfx] at hfy; injection hfy
    · rw [hok.1 (by rw [hfy]; rfl)] at hfx
      exact absurd hfx (by simp)
  · rw [n1, n2]
    apply findSome_eq_of_perm _ _ _ hp
    intro x hx y hy bx bz hfx hfy
    rcases pairOK_of_mem cs1 hpw x y hx hy with rfl | hok
    · rw [hfx] at hfy; injection hfy
    · rw [hok.2.1 (by rw [hfy]; rfl)] at hfx
      exact absurd hfx (by simp)
  · rw [c1, c2]
    apply findSome_eq_of_perm _ _ _ hp
    intro x hx y hy bx bz hfx hfy
    rcases pairOK_of_mem cs1 hpw x y hx hy with rfl | hok
    · rw [hfx] at hfy; injection hfy
    · rw [hok.2.2.1 (by rw [hfy]; rfl)] at hfx
      exact absurd hfx (by simp)
  · rw [s1, s2]
    apply findSome_eq_of_perm _ _ _ hp
    intro x hx y hy bx bz hfx hfy
    rcases pairOK_of_mem cs1 hpw x y hx hy with rfl | hok
    · rw [hfx] at hfy; injection hfy
    · rw [(hok.2.2.2.1 (by rw [hfy]; rfl)).1] at hfx
      exact absurd hfx (by simp)
  · rw [d1, d2]
    exact any_perm _ _ _ hp
  · intro k
    rw [k1 k, k2 k]
    apply findSome_eq_of_perm _ _ _ hp
    intro x hx y hy bx bz hfx hfy
    rcases pairOK_of_mem cs1 hpw x y hx hy with rfl | hok
    · rw [hfx] at hfy; injection hfy
    · cases hxs : x.stateDiff with
      | none => rw [hxs] at hfx; exact absurd hfx (by simp)
      | some sdx =>
        cases hys : y.stateDiff with
        | none => rw [hys] at hfy; exact absurd hfy (by simp)
        | some sdy =>
          rw [hxs] at hfx
          rw [hys] at hfy
          simp only [Option.some_bind] at hfx hfy
          exact hok.2.2.2.2.2 sdx sdy k bx bz hxs hys hfx hfy

/-- A summary of a doubled contribution list equals (as a Python value) a
summary of the single list. -/
theorem accMatches_self_append (cs : List AccountOverride) (o1 o2 : AccountOverride)
    (h1 : accMatches (cs ++ cs) o1) (h2 : accMatches cs o2) : accountEquiv o1 o2 := by
  obtain ⟨b1, n1, c1, s1, d1, k1⟩ := h1
  obtain ⟨b2, n2, c2, s2, d2, k2⟩ := h2
  refine ⟨?_, ?_, ?_, ?_, ?_, ?_⟩
  · rw [b1, b2, List.findSome?_append, Option.or_self]
  · rw [n1, n2, List.findSome?_append, Option.or_self]
  · rw [c1, c2, List.findSome?_append, Option.or_self]
  · rw [s1, s2, List.findSome?_append, Option.or_self]
  · rw [d1, d2, List.any_append, Bool.or_self]
  · intro k
    rw [k1 k, k2 k, List.findSome?_append, Option.or_self]

/-- The merged dict, address by address: an address gets an entry iff some
input contributes to it, and the entry is the canonical summary of its
contributions. -/
def mergedPointwise (l : List (Option StateOverrideMap)) (rm : StateOverrideMap) : Prop :=
  ∀ a, (alookup rm a = none ∧ contribs l a = []) ∨
    (∃ out, alookup rm a = some out ∧ contribs l a ≠ [] ∧
      accMatches (contribs l a) out)

/-- Full characterization of `merge_state_overwrites` on separated inputs
with duplicate-free diff keys: it fails exactly on inconsistent inputs,
returns `None` exactly when every input is `None`, and otherwise returns
the canonical per-address summary dict. -/
theorem merge_characterization (l : List (Option StateOverrideMap))
    (hsep : separatedInputs l = true) (hnd : sdKeysNodup l = true) :
    (merge_state_overwrites l = none ∧ ¬ Consistent l) ∨
    (merge_state_overwrites l = some none ∧ Consistent l ∧
      l.all (fun o => o.isNone) = true) ∨
    (∃ rm, merge_state_overwrites l = some (some rm) ∧ Consistent l ∧
      l.all (fun o => o.isNone) = false ∧ mergedPointwise l rm) := by
  have h0 : ∀ a, alookup ([] : StateOverrideMap) a = none := fun a => rfl
  by_cases hall : l.all (fun o => o.isNone) = true
  · right; left
    refine ⟨?_, ?_, hall⟩
    · rw [merge_state_overwrites, if_pos hall]
    · intro a
      rw [contribs_nil_of_all_none l hall a]
      exact List.Pairwise.nil
  · have hm : merge_state_overwrites l = (mergeAllGo [] l).map some := by
      rw [merge_state_overwrites, if_neg hall]
    rcases mergeAllGo_pointwise l [] with ⟨g1, a, g2⟩ | ⟨r, g1, g2⟩
    · left
      constructor
      · rw [hm, g1]; rfl
      · intro hcons
        rw [h0 a] at g2
        rcases accSeq_spec (contribs l a) (sep_of_separatedInputs l hsep a)
          (nodup_of_sdKeysNodup l hnd a) with ⟨_, f2⟩ | ⟨_, f2⟩ | ⟨out, f1, _, _⟩
        · exact f2 (hcons a)
        · rw [f2] at g2; exact Option.noConfusion g2
        · rw [f1] at g2; exact Option.noConfusion g2
    · right; right
      refine ⟨r, by rw [hm, g1]; rfl, ?_, by
        cases hv : l.all (fun o => o.isNone) with
        | false => rfl
        | true => exact absurd hv hall, ?_⟩
      · intro a
        have g2a := g2 a
        rw [h0 a] at g2a
        rcases accSeq_spec (contribs l a) (sep_of_separatedInputs l hsep a)
          (nodup_of_sdKeysNodup l hnd a) with ⟨f1, _⟩ | ⟨f1, _⟩ | ⟨out, _, f2, _⟩
        · rw [f1] at g2a; exact Option.noConfusion g2a
        · rw [f1]; exact List.Pairwise.nil
        · exact f2
      · intro a
        have g2a := g2 a
        rw [h0 a] at g2a
        rcases accSeq_spec (contribs l a) (sep_of_separatedInputs l hsep a)
          (nodup_of_sdKeysNodup l hnd a) with ⟨f1, _⟩ | ⟨f1, f2⟩ | ⟨out, f1, _, f3⟩
        · rw [f1] at g2a; exact Option.noConfusion g2a
        · left
          rw [f2] at g2a
          have : none = alookup r a := by injection g2a
          exact ⟨this.symm, f1⟩
        · right
          refine ⟨out, ?_, ?_, f3⟩
          · rw [f1] at g2a
            have : some out = alookup r a := by injection g2a
            exact this.symm
          · intro heq
            rw [heq] at f1
            have : (some none : Option (Option AccountOverride))
                = some (some out) := f1
            have h2 : (none : Option AccountOverride) = some out := by injection this
            exact Option.noConfusion h2

/-- C5 (amended): provided no single account entry of any input carries both
a full `state` and a `stateDiff`, and every `stateDiff` dict has distinct
slot keys, `merge_state_overwrites` succeeds iff the inputs are pairwise
consistent (per address: at most one contributor each for `balance`, `nonce`
and `code`; a full-state replace excludes every other full-state or
`stateDiff` contribution for that address; repeated `stateDiff` slots must
carry equal values).  Under the same proviso the merge result is independent
of the order of the input list up to Python dict equality, and merging a
map with itself equals merging it once whenever the doubled input is itself
consistent (i.e. the map's entries carry only `stateDiff` data); conflicting
inputs raise the `AssertionError`. -/
theorem merge_state_overwrites_spec :
    (∀ l, separatedInputs l = true → sdKeysNodup l = true →
      ((merge_state_overwrites l).isSome = true ↔ Consistent l)) ∧
    (∀ l l2, separatedInputs l = true → sdKeysNodup l = true → l.Perm l2 →
      resultEquiv (merge_state_overwrites l) (merge_state_overwrites l2)) ∧
    (∀ m, separatedInputs [some m] = true → sdKeysNodup [some m] = true →
      Consistent [some m, some m] →
      resultEquiv (merge_state_overwrites [some m, some m])
        (merge_state_overwrites [some m])) := by
  have hsymm : ∀ {x y : AccountOverride}, pairOK x y → pairOK y x :=
    fun {x y} h => pairOK_symm x y h
  refine ⟨?_, ?_, ?_⟩
  · intro l hsep hnd
    rcases merge_characterization l hsep hnd with ⟨e1, e2⟩ | ⟨e1, e2, _⟩ | ⟨rm, e1, e2, _, _⟩
    · rw [e1]
      constructor
      · intro h; exact absurd h (by simp)
      · intro h; exact absurd h e2
    · rw [e1]
      exact ⟨fun _ => e2, fun _ => rfl⟩
    · rw [e1]
      exact ⟨fun _ => e2, fun _ => rfl⟩
  · intro l l2 hsep hnd hp
    have hsep2 : separatedInputs l2 = true := by
      unfold separatedInputs
      rw [← all_perm _ l l2 hp]
      exact hsep
    have hnd2 : sdKeysNodup l2 = true := by
      unfold sdKeysNodup
      rw [← all_perm _ l l2 hp]
      exact hnd
    have hconsiff : Consistent l ↔ Consistent l2 := by
      constructor
      · intro h a
        exact (List.Perm.pairwise_iff hsymm (contribs_perm l l2 hp a)).mp (h a)
      · intro h a
        exact (List.Perm.pairwise_iff hsymm (contribs_perm l l2 hp a)).mpr (h a)
    have hallp := all_perm (fun o => o.isNone) l l2 hp
    rcases merge_characterization l hsep hnd with
      ⟨e1, e2⟩ | ⟨e1, e2, e3⟩ | ⟨rm, e1, e2, e3, e4⟩ <;>
      rcases merge_characterization l2 hsep2 hnd2 with
        ⟨f1, f2⟩ | ⟨f1, f2, f3⟩ | ⟨rm2, f1, f2, f3, f4⟩
    · rw [e1, f1]; trivial
    · exact absurd (hconsiff.mpr f2) e2
    · exact absurd (hconsiff.mpr f2) e2
    · exact absurd (hconsiff.mp e2) f2
    · rw [e1, f1]; trivial
    · rw [← hallp] at f3
      rw [e3] at f3
      exact Bool.noConfusion f3
    · exact absurd (hconsiff.mp e2) f2
    · rw [← hallp] at f3
      rw [f3] at e3
      exact Bool.noConfusion e3
    · rw [e1, f1]
      show mapEquiv rm rm2
      intro a
      rcases e4 a with ⟨ha1, ha2⟩ | ⟨out, ha1, ha2, ha3⟩ <;>
        rcases f4 a with ⟨hb1, hb2⟩ | ⟨out2, hb1, hb2, hb3⟩
      · refine ⟨by rw [ha1, hb1], ?_⟩
        intro x y hx _
        rw [ha1] at hx
        exact Option.noConfusion hx
      · have hperm := contribs_perm l l2 hp a
        rw [ha2] at hperm
        exact absurd hperm.symm.eq_nil hb2
      · have hperm := contribs_perm l l2 hp a
        rw [hb2] at hperm
        exact absurd hperm.eq_nil ha2
      · refine ⟨by rw [ha1, hb1]; rfl, ?_⟩
        intro x y hx hy
        rw [ha1] at hx
        rw [hb1] at hy
        have hx2 : out = x := by injection hx
        have hy2 : out2 = y := by injection hy
        rw [← hx2, ← hy2]
        exact accMatches_perm_equiv _ _ (contribs_perm l l2 hp a) (e2 a) _ _ ha3 hb3
  · intro m hsep1 hnd1 hcons2
    have hg : ∀ (o : Option StateOverrideMap) (g : Nat × AccountOverride → Bool),
        ([o].all (fun x => (x.getD []).all g) = true) →
        ([o, o].all (fun x => (x.getD []).all g) = true) := by
      intro o g h
      rw [List.all_cons, List.all_nil, Bool.and_true] at h
      rw [List.all_cons, List.all_cons, List.all_nil, Bool.and_true, h, Bool.and_self]
    have hsep2 : separatedInputs [some m, some m] = true := hg _ _ hsep1
    have hnd2 : sdKeysNodup [some m, some m] = true := hg _ _ hnd1
    have hcnil : ∀ a, contribs ([] : List (Option StateOverrideMap)) a = [] :=
      fun a => rfl
    have hc2 : ∀ a, contribs [some m, some m] a = contribsOf m a ++ contribsOf m a := by
      intro a
      rw [contribs_cons, contribs_cons, hcnil a, List.append_nil]
    have hc1 : ∀ a, contribs [some m] a = contribsOf m a := by
      intro a
      rw [contribs_cons, hcnil a, List.append_nil]
    have hcons1 : Consistent [some m] := by
      intro a
      rw [hc1 a]
      have h := hcons2 a
      rw [hc2 a] at h
      exact (List.pairwise_append.mp h).1
    rcases merge_characterization [some m, some m] hsep2 hnd2 with
      ⟨e1, e2⟩ | ⟨_, _, e3⟩ | ⟨rm, e1, e2, _, e4⟩
    · exact absurd hcons2 e2
    · simp at e3
    · rcases merge_characterization [some m] hsep1 hnd1 with
        ⟨f1, f2⟩ | ⟨_, _, f3⟩ | ⟨rm2, f1, _, _, f4⟩
      · exact absurd hcons1 f2
      · simp at f3
      · rw [e1, f1]
        show mapEquiv rm rm2
        intro a
        rcases e4 a with ⟨ha1, ha2⟩ | ⟨out, ha1, ha2, ha3⟩ <;>
          rcases f4 a with ⟨hb1, hb2⟩ | ⟨out2, hb1, hb2, hb3⟩
        · refine ⟨by rw [ha1, hb1], ?_⟩
          intro x y hx _
          rw [ha1] at hx
          exact Option.noConfusion hx
        · rw [hc2 a] at ha2
          have := (List.append_eq_nil.mp ha2).1
          rw [hc1 a] at hb2
          exact absurd this hb2
        · rw [hc1 a] at hb2
          rw [hc2 a, hb2, List.append_nil] at ha2
          exact absurd rfl ha2
        · refine ⟨by rw [ha1, hb1]; rfl, ?_⟩
          intro x y hx hy
          rw [ha1] at hx
          rw [hb1] at hy
          have hx2 : out = x := by injection hx
          have hy2 : out2 = y := by injection hy
          rw [← hx2, ← hy2]
          rw [hc2 a] at ha3
          rw [hc1 a] at hb3
          exact accMatches_self_append _ _ _ ha3 hb3

/-- Witness input: a balance override for address 1. -/
def mergeWA : StateOverrideMap := [(1, ⟨some 3, none, none, none, none⟩)]

/-- Witness input: a one-slot `stateDiff` override for address 2. -/
def mergeWB : StateOverrideMap := [(2, ⟨none, none, none, none, some [(0, 7)]⟩)]

/-- Witness input for idempotence: a pure `stateDiff` override. -/
def mergeWM : StateOverrideMap := [(1, ⟨none, none, none, none, some [(0, 7)]⟩)]

theorem mergeWM_doubled_consistent : Consistent [some mergeWM, some mergeWM] := by
  intro a
  by_cases h : 1 = a
  · subst h
    have hc : contribs [some mergeWM, some mergeWM] 1
        = [⟨none, none, none, none, some [(0, 7)]⟩,
           ⟨none, none, none, none, some [(0, 7)]⟩] := by decide
    rw [hc]
    have hDD : pairOK ⟨none, none, none, none, some [(0, 7)]⟩
        ⟨none, none, none, none, some [(0, 7)]⟩ := by
      refine ⟨by decide, by decide, by decide, by decide, by decide, ?_⟩
      intro sd1 sd2 k v1 v2 h1 h2 hl1 hl2
      injection h1 with h1
      injection h2 with h2
      subst h1
      subst h2
      rw [alookup_cons] at hl1 hl2
      by_cases hk : 0 = k
      · rw [if_pos hk] at hl1 hl2
        have e1 : (7 : Nat) = v1 := by injection hl1
        have e2 : (7 : Nat) = v2 := by injection hl2
        rw [← e1, ← e2]
      · rw [if_neg hk] at hl1
        exact Option.noConfusion hl1
    refine List.Pairwise.cons ?_
      (List.Pairwise.cons (fun b hb => absurd hb (List.not_mem_nil b)) List.Pairwise.nil)
    intro b hb
    rw [List.mem_singleton] at hb
    rw [hb]
    exact hDD
  · have hc : contribs [some mergeWM, some mergeWM] a = [] := by
      rw [contribs_cons, contribs_cons]
      show contribsOf mergeWM a ++ (contribsOf mergeWM a ++ contribs [] a) = []
      rw [show contribs ([] : List (Option StateOverrideMap)) a = [] from rfl,
        List.append_nil]
      rw [show mergeWM
        = [(1, (⟨none, none, none, none, some [(0, 7)]⟩ : AccountOverride))] from rfl]
      rw [contribsOf_cons, if_neg h, contribsOf_nil, List.append_nil]
    rw [hc]
    exact List.Pairwise.nil

/-- Closed witness for C5: the amended specification applied to concrete
inputs - the success-iff-consistency equivalence, commutativity under a
concrete swap, and idempotence of a pure-`stateDiff` map. -/
theorem merge_state_overwrites_spec_witness :
    ((merge_state_overwrites [some mergeWA, some mergeWB]).isSome = true ↔
      Consistent [some mergeWA, some mergeWB]) ∧
    resultEquiv (merge_state_overwrites [some mergeWA, some mergeWB])
      (merge_state_overwrites [some mergeWB, some mergeWA]) ∧
    resultEquiv (merge_state_overwrites [some mergeWM, some mergeWM])
      (merge_state_overwrites [some mergeWM]) :=
  ⟨merge_state_overwrites_spec.1 [some mergeWA, some mergeWB] (by decide) (by decide),
   merge_state_overwrites_spec.2.1 [some mergeWA, some mergeWB]
     [some mergeWB, some mergeWA] (by decide) (by decide)
     (List.Perm.swap (some mergeWB) (some mergeWA) []),
   merge_state_overwrites_spec.2.2 mergeWM (by decide) (by decide)
     mergeWM_doubled_consistent⟩

end Web3Verify
